import Mathlib

/-!
Verification of the MEDBO-AI navigation core.

This file gives a shallow embedding, in Lean 4, of the grid-navigation code of
the MEDBO-AI repository and proves or refutes the frozen specification claims
about it.  The embedded functions are:

* `astar` — the heap-based A* of `nav_pygame.py` (lines 48-75).  The Python
  `heapq` priority queue of `(f, cost, cell)` tuples is modelled as a list kept
  sorted under the lexicographic order on those tuples; `heapq.heappop` returns
  exactly the lexicographically least tuple, so the model is observationally
  identical.  The unbounded `while openq:` loop is modelled with an explicit
  fuel counter plus a proved sufficiency bound, so that the embedded function
  is total and computable.  The Python value `None` (no path) is modelled as
  `Option.none`.
* `a_star` — the set-based A* of `app.py` (lines 150-175).  The Python set
  `open_set` is modelled as a duplicate-free list; `min(open_set, key=...)`
  returns the first minimal element in iteration order, modelled as the first
  minimal element of the list.
* `move_dynamic`, `lidar_scan`, `current_grid`, `start_navigation` and the
  arrival/replanning step of `animate_robot` from `nav_pygame.py`.  Calls to
  `random.random` / `random.shuffle` are passed in as oracle parameters, and
  the floating-point ray geometry of `lidar_scan` is passed in as an abstract
  cell-valued function, since IEEE-754 trigonometry has no shallow embedding.

Cells are pairs of (unbounded) integers, exactly like Python `(row, col)`
tuples.  Grids are lists of lists of naturals (`0` free, `1` wall), exactly
like the Python lists of lists.
-/

namespace Medbo

/-- A grid cell `(row, col)`, as an unbounded integer pair like a Python tuple. -/
abbrev Cell := Int × Int

/-- An occupancy grid: list of rows, each a list of `0` (free) / `1` (wall),
mirroring `self.grid` in `nav_pygame.py`. -/
abbrev Grid := List (List Nat)

/-- The number of rows, `len(grid)`. -/
def rowsOf (grid : Grid) : Nat := grid.length

/-- The number of columns, `len(grid[0])` (`0` for an empty grid). -/
def colsOf (grid : Grid) : Nat := (grid.headD []).length

/-- Grid access `grid[r][c]`; the callers below only use it after the bounds
check `0 <= r < rows and 0 <= c < cols`, so the default is irrelevant there. -/
def cellVal (grid : Grid) (p : Cell) : Nat :=
  (grid.getD p.1.toNat []).getD p.2.toNat 1

/-- The bounds check `0 <= r < rows and 0 <= c < cols`. -/
def inB (grid : Grid) (p : Cell) : Bool :=
  0 ≤ p.1 && p.1 < (rowsOf grid : Int) && 0 ≤ p.2 && p.2 < (colsOf grid : Int)

/-- The neighbour test of `astar`: in bounds and `grid[nr][nc] == 0`. -/
def isFree (grid : Grid) (p : Cell) : Bool :=
  inB grid p && cellVal grid p == 0

/-- The four 4-connected moves `((1,0),(-1,0),(0,1),(0,-1))` used by both A*
implementations (`astar` line 67, `neighbors` in `app.py` line 141). -/
def dirs : List Cell := [(1, 0), (-1, 0), (0, 1), (0, -1)]

/-- Cell translation by a move. -/
def addC (p d : Cell) : Cell := (p.1 + d.1, p.2 + d.2)

/-- The Manhattan-distance heuristic `abs(a[0]-b[0]) + abs(a[1]-b[1])`,
defined identically in `nav_pygame.py` (line 45) and `app.py` (line 146). -/
def heuristic (a b : Cell) : Nat :=
  (a.1 - b.1).natAbs + (a.2 - b.2).natAbs

/-! ## Association-list maps

The Python dictionaries `came`, `g`, `f` are modelled as association lists
with first-match lookup and in-place update. -/

/-- Dictionary lookup. -/
def mfind {α : Type} : List (Cell × α) → Cell → Option α
  | [], _ => none
  | (k2, v) :: rest, k => if k = k2 then some v else mfind rest k

/-- Dictionary update `m[k] = v`, replacing the binding if present. -/
def msetU {α : Type} : List (Cell × α) → Cell → α → List (Cell × α)
  | [], k, v => [(k, v)]
  | (k2, v2) :: rest, k, v =>
      if k = k2 then (k, v) :: rest else (k2, v2) :: msetU rest k v

/-! ## The heap-based A* of `nav_pygame.py` -/

/-- A `heapq` entry `(f, cost, cell)` as pushed on line 51/74. -/
abbrev Entry := Nat × Nat × Cell

/-- Lexicographic comparison of integer pairs, as Python compares
`(r, c)` tuples. -/
def cellLE (a b : Cell) : Bool :=
  a.1 < b.1 || (a.1 == b.1 && a.2 ≤ b.2)

/-- Lexicographic comparison of heap entries `(f, cost, cell)`, the order by
which `heapq` selects the entry to pop. -/
def keyLE (a b : Entry) : Bool :=
  a.1 < b.1 || (a.1 == b.1 &&
    (a.2.1 < b.2.1 || (a.2.1 == b.2.1 && cellLE a.2.2 b.2.2)))

/-- `heapq.heappush`: the queue is modelled as a sorted list, so a push is an
ordered insertion. -/
def pushE (e : Entry) : List Entry → List Entry
  | [] => [e]
  | x :: xs => if keyLE e x then e :: x :: xs else x :: pushE e xs

/-- Path reconstruction (lines 58-62 of `nav_pygame.py`, identically lines
158-164 of `app.py`): follow `came` back to the start, accumulating so that
the result is already in start-to-goal order (the Python code appends and
reverses).  The fuel bound `10^9` exceeds every possible chain length because
every stored `g`-value is below `10^9`. -/
def reconstructN : Nat → List (Cell × Cell) → Cell → List Cell → List Cell
  | 0, _, cur, acc => cur :: acc
  | fuel + 1, came, cur, acc =>
      match mfind came cur with
      | none => cur :: acc
      | some prev => reconstructN fuel came prev (cur :: acc)

/-- The relaxation loop `for dr, dc in ((1,0),(-1,0),(0,1),(0,-1))` of
`astar` (lines 67-74).  `gcur` is `g[current]`, which is unchanged during the
loop because relaxation only ever touches the four distinct neighbour cells.
The `1e9` default of `g.get((nr,nc), 1e9)` is the exact integer `10^9`:
Python compares the int `tentative` with the float `1e9` exactly. -/
def expandN (grid : Grid) (goal current : Cell) (gcur : Nat) :
    List Cell → List Entry × List (Cell × Cell) × List (Cell × Nat) →
    List Entry × List (Cell × Cell) × List (Cell × Nat)
  | [], st => st
  | d :: ds, (q, came, g) =>
      let nb := addC current d
      if isFree grid nb then
        let tentative := gcur + 1
        if tentative < (mfind g nb).getD 1000000000 then
          expandN grid goal current gcur ds
            (pushE (tentative + heuristic nb goal, tentative, nb) q,
             msetU came nb current, msetU g nb tentative)
        else expandN grid goal current gcur ds (q, came, g)
      else expandN grid goal current gcur ds (q, came, g)

/-- The main loop of `astar` (lines 55-75), with explicit fuel.  The result is
`none` when the fuel runs out (never, for the fuel bound proved sufficient
below), `some none` when the open queue is exhausted (Python `return None`),
and `some (some path)` when the goal is popped. -/
def astarLoop (grid : Grid) (goal : Cell) :
    Nat → List Entry → List (Cell × Cell) → List (Cell × Nat) → List Cell →
    Option (Option (List Cell))
  | 0, _, _, _, _ => none
  | _ + 1, [], _, _, _ => some none
  | fuel + 1, (_f, _cost, current) :: rest, came, g, visited =>
      if current = goal then
        some (some (reconstructN 1000000000 came current []))
      else if current ∈ visited then
        astarLoop grid goal fuel rest came g visited
      else
        let st := expandN grid goal current ((mfind g current).getD 0) dirs
          (rest, came, g)
        astarLoop grid goal fuel st.1 st.2.1 st.2.2 (current :: visited)

/-- Fuel sufficient for `astarLoop`: the loop pops at most one initial entry
plus four pushes for each of at most `rows*cols + 1` visited cells. -/
def astarFuel (grid : Grid) : Nat :=
  4 * (rowsOf grid * colsOf grid + 1) + 2

/-- Run `astar(grid, start, goal)` with the sufficient fuel. -/
def astarRun (grid : Grid) (start goal : Cell) : Option (Option (List Cell)) :=
  astarLoop grid goal (astarFuel grid)
    [(heuristic start goal, 0, start)] [] [(start, 0)] []

/-- `astar(grid, start, goal)` from `nav_pygame.py`: `some path` on success,
`none` for the Python `return None` (no path). -/
def astar (grid : Grid) (start goal : Cell) : Option (List Cell) :=
  (astarRun grid start goal).getD none

/-! ## The set-based A* of `app.py` -/

/-- The in-bounds test of `neighbors(pt, w, h)` in `app.py`: cells are
`(x, y)` with `0 <= x < w and 0 <= y < h`. -/
def inBoundsA (w h : Int) (p : Cell) : Bool :=
  0 ≤ p.1 && p.1 < w && 0 ≤ p.2 && p.2 < h

/-- Comparison of `f.get(n, float('inf'))` keys: `none` is infinity. -/
def fkeyLT (a b : Option Nat) : Bool :=
  match a, b with
  | none, _ => false
  | some _, none => true
  | some x, some y => x < y

/-- `min(open_set, key=lambda n: f.get(n, float('inf')))`: the first element
of the list whose key is minimal (Python's `min` keeps the first of equal
candidates; set iteration order is modelled as list order). -/
def minByF (f : List (Cell × Nat)) : List Cell → Option Cell
  | [] => none
  | c :: cs =>
      match minByF f cs with
      | none => some c
      | some b => if fkeyLT (mfind f b) (mfind f c) then some b else some c

/-- Python `set.add`: append if absent. -/
def addIfAbsent (l : List Cell) (c : Cell) : List Cell :=
  if c ∈ l then l else l ++ [c]

/-- The relaxation loop `for nb in neighbors(current, w, h)` of `a_star`
(lines 166-174).  Cells out of bounds are skipped by `neighbors`; cells in
`obstacles` are skipped by the `continue`.  `gcur` is `g[current]`, unchanged
during the loop as in `expandN`.  The `float('inf')` default means a fresh
cell is always relaxed. -/
def expandA (w h : Int) (obstacles : List Cell) (goal current : Cell)
    (gcur : Nat) :
    List Cell → List Cell × List (Cell × Cell) × List (Cell × Nat) × List (Cell × Nat) →
    List Cell × List (Cell × Cell) × List (Cell × Nat) × List (Cell × Nat)
  | [], st => st
  | d :: ds, (op, came, g, f) =>
      let nb := addC current d
      if inBoundsA w h nb then
        if nb ∈ obstacles then expandA w h obstacles goal current gcur ds (op, came, g, f)
        else
          let tentative := gcur + 1
          if (mfind g nb).all (fun v => decide (tentative < v)) then
            expandA w h obstacles goal current gcur ds
              (addIfAbsent op nb, msetU came nb current, msetU g nb tentative,
               msetU f nb (tentative + heuristic nb goal))
          else expandA w h obstacles goal current gcur ds (op, came, g, f)
      else expandA w h obstacles goal current gcur ds (op, came, g, f)

/-- The main loop of `a_star` (lines 155-175), with explicit fuel: `none`
when fuel runs out (never, for the proved bound), `some []` for the Python
`return []` on exhaustion, `some path` when the goal is selected.  The
reconstruction is run with fuel `g.length`, which strictly exceeds every
parent-chain length since stored `g`-values satisfy `gv + 1 ≤ g.length`. -/
def aStarLoop (w h : Int) (obstacles : List Cell) (goal : Cell) :
    Nat → List Cell → List (Cell × Cell) → List (Cell × Nat) → List (Cell × Nat) →
    Option (List Cell)
  | 0, _, _, _, _ => none
  | fuel + 1, op, came, g, f =>
      match minByF f op with
      | none => some []
      | some current =>
          if current = goal then
            some (reconstructN g.length came current [])
          else
            let st := expandA w h obstacles goal current
              ((mfind g current).getD 0) dirs (op.erase current, came, g, f)
            aStarLoop w h obstacles goal fuel st.1 st.2.1 st.2.2.1 st.2.2.2

/-- Fuel sufficient for `aStarLoop` (proved below): each iteration strictly
decreases `|open| + sum of g + (w*h+3) * (w*h+1 - |dom g|)`. -/
def aStarFuel (w h : Int) : Nat :=
  (w.toNat * h.toNat + 3) * (w.toNat * h.toNat + 1) + 2

/-- Run `a_star(start, goal, w, h, obstacles)` with the sufficient fuel. -/
def aStarRun (start goal : Cell) (w h : Int) (obstacles : List Cell) :
    Option (List Cell) :=
  aStarLoop w h obstacles goal (aStarFuel w h) [start] [] [(start, 0)]
    [(start, heuristic start goal)]

/-- `a_star(start, goal, w, h, obstacles)` from `app.py`: the returned list is
`[]` exactly when no path exists. -/
def a_star (start goal : Cell) (w h : Int) (obstacles : List Cell) :
    List Cell :=
  (aStarRun start goal w h obstacles).getD []

/-! ## The navigation controller of `nav_pygame.py` -/

/-- The navigation state of `NavSim` that the claims are about: the static
grid, start/goal, the dynamic-obstacle and detected-cell sets (Python sets,
modelled as duplicate-free lists), and the robot/path/flags fields.  The
continuous pixel position, clock and log are irrelevant to the claims and
omitted. -/
structure NavState where
  grid : Grid
  start : Cell
  goal : Cell
  dynamic : List Cell
  detected : List Cell
  robot_cell : Cell
  path : List Cell
  path_index : Nat
  moving : Bool
  returning : Bool
deriving Repr, DecidableEq

/-- Write `grid[r][c] = v`.  Python list indexing with a negative index wraps
around; that is not modelled (the cells written by `current_grid` are always
in bounds in the simulation, see `spawn_dynamic`/`move_dynamic`). -/
def gridSet (g : Grid) (c : Cell) (v : Nat) : Grid :=
  g.set c.1.toNat ((g.getD c.1.toNat []).set c.2.toNat v)

/-- `current_grid` (lines 177-185): copy the static grid, mark every dynamic
obstacle cell as a wall, then mark every in-bounds detected cell as a wall
(the bounds guard `0 <= r < self.cfg.rows and 0 <= c < self.cfg.cols` is in
the source; `cfg` dimensions equal the grid dimensions). -/
def current_grid (st : NavState) : Grid :=
  let g := st.dynamic.foldl (fun acc c => gridSet acc c 1) st.grid
  st.detected.foldl (fun acc c => if inB st.grid c then gridSet acc c 1 else acc) g

/-- `compute_path` (lines 193-195): run A* on the composite view. -/
def compute_path (st : NavState) (a b : Cell) : Option (List Cell) :=
  astar (current_grid st) a b

/-- The blocking test on the next path cell (line 299):
`nxt in self.dynamic or self.grid[nxt[0]][nxt[1]]==1 or nxt in self.detected_cells`. -/
def blockedNext (st : NavState) (nxt : Cell) : Bool :=
  decide (nxt ∈ st.dynamic) || cellVal st.grid nxt == 1 || decide (nxt ∈ st.detected)

/-- The cell-arrival branch of `animate_robot` (lines 291-314): snap to the
target cell, advance the path index, and if the next path cell is blocked,
replan from the current cell to the active destination (`self.start` when
returning, else `self.goal`).  On replan success the path is replaced and the
index reset to 0; on failure `moving` is cleared (abort).  The second
component records every planner invocation as a `(from, to)` pair.
Python's `if newp:` treats both `None` and `[]` as failure. -/
def arrivalStep (st : NavState) : NavState × List (Cell × Cell) :=
  let target := st.path.getD st.path_index st.robot_cell
  let st1 := { st with robot_cell := target, path_index := st.path_index + 1 }
  if st1.path_index < st1.path.length then
    let nxt := st1.path.getD st1.path_index target
    if blockedNext st1 nxt then
      let goalcell := if st1.returning then st1.start else st1.goal
      match compute_path st1 st1.robot_cell goalcell with
      | some (c :: rest) =>
          ({ st1 with path := c :: rest, path_index := 0 },
           [(st1.robot_cell, goalcell)])
      | _ => ({ st1 with moving := false }, [(st1.robot_cell, goalcell)])
    else (st1, [])
  else (st1, [])

/-- `start_navigation` (lines 320-332).  When `self.moving` it logs and
returns (no planning, no state change).  Otherwise it always calls
`astar(current_grid(), robot_cell, goal)`; on a falsy result it returns, else
it spawns the animation thread with the path.  `start_navigation` itself
never mutates the navigation state — `moving` is set later, inside the
spawned `animate_robot` thread.  The result records the new state, the
planner invocations made, and the path handed to the spawned thread. -/
def start_navigation (st : NavState) : NavState × List (Cell × Cell) × Option (List Cell) :=
  if st.moving then (st, [], none)
  else
    match astar (current_grid st) st.robot_cell st.goal with
    | some (c :: rest) => (st, [(st.robot_cell, st.goal)], some (c :: rest))
    | _ => (st, [(st.robot_cell, st.goal)], none)

/-- The prologue of `animate_robot` (lines 241-252): on an empty path clear
`moving` and return; otherwise set `moving`, clear `returning`, install the
path and reset the index.  This runs inside the spawned thread. -/
def animate_start (st : NavState) (p : List Cell) : NavState :=
  match p with
  | [] => { st with moving := false }
  | _ => { st with moving := true, returning := false, path := p, path_index := 0 }

/-! ## The dynamic-obstacle mover of `nav_pygame.py` -/

/-- The candidate moves `[(0,0),(1,0),(-1,0),(0,1),(0,-1)]` of `move_dynamic`
(line 202), before shuffling. -/
def obDirs : List Cell := [(0, 0), (1, 0), (-1, 0), (0, 1), (0, -1)]

/-- The inner candidate loop of `move_dynamic` (lines 205-208): take the
first direction whose landing cell is in bounds, on a free static cell, not
in the (pre-tick) dynamic set, and distinct from start and goal; if none
qualifies, stay (`moved = False`).  Note that the stay candidate `(0,0)`
always fails the `not in self.dynamic` test, since the obstacle itself is in
the pre-tick set. -/
def tryMove (grid : Grid) (s g : Cell) (oldDyn : List Cell) (rc : Cell) :
    List Cell → Cell
  | [] => rc
  | d :: ds =>
      let n := addC rc d
      if inB grid n && (cellVal grid n == 0) && !(decide (n ∈ oldDyn)) &&
          !(decide (n = s)) && !(decide (n = g)) then n
      else tryMove grid s g oldDyn rc ds

/-- `move_dynamic` (lines 198-213).  Every obstacle is checked against the
pre-tick set `dyn`; the results are accumulated into a fresh set (`newset`),
so two obstacles moving onto the same cell collapse into one element.  The
call `random.random() < 0.6` is the oracle `dec`, and the shuffled direction
list of each obstacle is the oracle `ord`. -/
def move_dynamic (grid : Grid) (s g : Cell) (dyn : List Cell)
    (dec : Cell → Bool) (ord : Cell → List Cell) : List Cell :=
  dyn.foldl (fun acc rc =>
    addIfAbsent acc (if dec rc then tryMove grid s g dyn rc (ord rc) else rc)) []

/-! ## The LIDAR scan of `nav_pygame.py` -/

/-- `LIDAR_RANGE_CELLS = 5` (line 26). -/
def LIDAR_RANGE_CELLS : Nat := 5

/-- The swept angles `range(0, 360, LIDAR_ANGLE_STEP)` with
`LIDAR_ANGLE_STEP = 6` (lines 27, 221). -/
def lidarAngles : List Nat := (List.range 60).map (fun i => i * 6)

/-- The occupancy test of a scanned cell (line 230):
`self.grid[rr][cc] == 1 or (rr,cc) in self.dynamic`, evaluated only after the
bounds check. -/
def occupiedB (grid : Grid) (dyn : List Cell) (c : Cell) : Bool :=
  cellVal grid c == 1 || decide (c ∈ dyn)

/-- One ray of `lidar_scan` (lines 224-234): step `d = 1 .. LIDAR_RANGE_CELLS`
outward; at each step the covered cell is `rayCell angle d`.  The function
`rayCell` stands for the floating-point geometry
`int((cy + sin(radians(angle+phase))*(d*cell)) // cell)` (and cosine for the
column), which has no shallow embedding; the loop structure around it is
translated exactly: stop at the first out-of-bounds cell, or at the first
occupied cell, which is the single detection of the ray. -/
def rayFirstHit (grid : Grid) (dyn : List Cell) (rayCell : Nat → Nat → Cell)
    (angle : Nat) : Nat → Nat → Option Cell
  | _, 0 => none
  | d, rem + 1 =>
      let c := rayCell angle d
      if inB grid c then
        if occupiedB grid dyn c then some c
        else rayFirstHit grid dyn rayCell angle (d + 1) rem
      else none

/-- The detected-cell set of `lidar_scan` (lines 216-238): the union over all
swept angles of the (at most one) detection of each ray.  The `sensors` ray
endpoints and the rotating phase offset are floating-point render geometry,
absorbed into `rayCell`. -/
def lidar_scan (grid : Grid) (dyn : List Cell) (rayCell : Nat → Nat → Cell) :
    List Cell :=
  lidarAngles.foldl (fun acc a =>
    match rayFirstHit grid dyn rayCell a 1 LIDAR_RANGE_CELLS with
    | some c => addIfAbsent acc c
    | none => acc) []

/-! ## Path validity

The correctness statements use a common notion of a valid grid path: the cell
sequence starts at `s`, ends at `t`, moves by 4-connected steps, and every
cell after the first is traversable.  The start cell itself is exempt, exactly
as in both A* implementations, which never test their start cell. -/

/-- A 4-connected move. -/
def adjC (a b : Cell) : Prop := ∃ d ∈ dirs, b = addC a d

/-- A valid path under a step relation `R`: starts at `s`, ends at `t`,
consecutive cells related by `R`. -/
def ValidPathR (R : Cell → Cell → Prop) (s t : Cell) (p : List Cell) : Prop :=
  p.head? = some s ∧ p.getLast? = some t ∧ List.Chain' R p

/-- One step of a valid path for `astar`: 4-connected, landing on a free
in-bounds cell of the composite grid. -/
def stepN (grid : Grid) (a b : Cell) : Prop := adjC a b ∧ isFree grid b = true

/-- A valid path for `astar` from `s` to `t`.  Only cells after the first
need to be free, exactly as in `astar`, which never tests its start cell. -/
def ValidPathN (grid : Grid) (s t : Cell) (p : List Cell) : Prop :=
  ValidPathR (stepN grid) s t p

/-- One step of a valid path for `a_star`: 4-connected, in bounds, not an
obstacle. -/
def stepA (w h : Int) (obstacles : List Cell) (a b : Cell) : Prop :=
  adjC a b ∧ inBoundsA w h b = true ∧ b ∉ obstacles

/-- A valid path for `a_star` from `s` to `t`. -/
def ValidPathA (w h : Int) (obstacles : List Cell) (s t : Cell) (p : List Cell) : Prop :=
  ValidPathR (stepA w h obstacles) s t p

/-! ## Invariants of the `astar` loop

The A* correctness proofs use the standard invariants: every queue entry is
backed by a `g`-value; every `g`-value is witnessed by a real path
(`gpath`); parent links rebuild valid paths with strictly decreasing
`g`-values (`came_step`/`came_g`); every unvisited cell of `dom g` has its
freshest entry on the queue (`fresh`); every visited cell's `g`-value is
optimal (`vopt`) and its free neighbours have been relaxed (`vx`). -/

/-- All free in-bounds neighbours of `n` carry a `g`-value at most `gv + 1`
(the `10^9` guard mirrors the `1e9` default of line 71 of `nav_pygame.py`:
a relaxation at or above it is rejected). -/
def relaxedAt (grid : Grid) (g : List (Cell × Nat)) (n : Cell) (gv : Nat) : Prop :=
  ∀ d ∈ dirs, isFree grid (addC n d) = true → gv + 1 < 1000000000 →
    ∃ gu, mfind g (addC n d) = some gu ∧ gu ≤ gv + 1

/-- The visited-independent part of the `astar` loop invariant. -/
structure NavCore (grid : Grid) (s goal : Cell) (q : List Entry)
    (came : List (Cell × Cell)) (g : List (Cell × Nat)) : Prop where
  sorted : q.Pairwise fun a b => keyLE a b = true
  qg : ∀ e ∈ q, ∃ gv, mfind g e.2.2 = some gv ∧ gv ≤ e.2.1 ∧
    e.1 = e.2.1 + heuristic e.2.2 goal
  qU : ∀ e ∈ q, e.2.2 = s ∨ inB grid e.2.2 = true
  gpath : ∀ n gv, mfind g n = some gv →
    ∃ p, ValidPathN grid s n p ∧ p.length ≤ gv + 1
  gbound : ∀ n gv, mfind g n = some gv → gv < 1000000000
  gs : mfind g s = some 0
  came_step : ∀ n m, mfind came n = some m → stepN grid m n
  came_g : ∀ n m, mfind came n = some m →
    ∃ gn gm, mfind g n = some gn ∧ mfind g m = some gm ∧ gm < gn
  came_dom : ∀ n gv, mfind g n = some gv → n = s ∨ ∃ m, mfind came n = some m

/-- The full `astar` loop invariant. -/
structure NavInv (grid : Grid) (s goal : Cell) (q : List Entry)
    (came : List (Cell × Cell)) (g : List (Cell × Nat))
    (visited : List Cell) : Prop where
  core : NavCore grid s goal q came g
  fresh : ∀ n gv, mfind g n = some gv → n ∉ visited →
    (gv + heuristic n goal, gv, n) ∈ q
  vopt : ∀ n ∈ visited, ∃ gv, mfind g n = some gv ∧
    ∀ p, ValidPathN grid s n p → gv + 1 ≤ p.length
  vx : ∀ n ∈ visited, ∀ gv, mfind g n = some gv → relaxedAt grid g n gv
  gnv : goal ∉ visited

/-- The cells `astar` can ever enqueue: the start plus the in-bounds cells. -/
def navUniv (grid : Grid) (s : Cell) : Finset Cell :=
  insert s ((Finset.range (rowsOf grid) ×ˢ Finset.range (colsOf grid)).image
    (fun rc => ((rc.1 : Int), (rc.2 : Int))))

/-- The number of potentially-enqueueable cells not yet visited, the
termination measure of the `astar` loop. -/
def unvisitedCard (grid : Grid) (s : Cell) (visited : List Cell) : Nat :=
  ((navUniv grid s).filter (fun c => c ∉ visited)).card

/-! ## Invariants of the `a_star` loop -/

/-- The cells `a_star` can ever touch: the start plus the in-bounds cells. -/
def appUniv (w h : Int) (s : Cell) : Finset Cell :=
  insert s ((Finset.range w.toNat ×ˢ Finset.range h.toNat).image
    (fun rc => ((rc.1 : Int), (rc.2 : Int))))

/-- The open/`came`/`g`/`f` part of the `a_star` loop invariant (everything
except the closed-cell relaxation property, which is established by each
expansion). -/
structure AppCore (w h : Int) (obstacles : List Cell) (s goal : Cell)
    (op : List Cell) (came : List (Cell × Cell))
    (g f : List (Cell × Nat)) : Prop where
  opNodup : op.Nodup
  opDom : ∀ n ∈ op, ∃ gv, mfind g n = some gv
  fsync : ∀ n, mfind f n = (mfind g n).map (fun v => v + heuristic n goal)
  gpath : ∀ n gv, mfind g n = some gv →
    ∃ p, ValidPathA w h obstacles s n p ∧ p.length ≤ gv + 1
  gs : mfind g s = some 0
  came_step : ∀ n m, mfind came n = some m → stepA w h obstacles m n
  came_g : ∀ n m, mfind came n = some m →
    ∃ gn gm, mfind g n = some gn ∧ mfind g m = some gm ∧ gm < gn
  came_dom : ∀ n gv, mfind g n = some gv → n = s ∨ ∃ m, mfind came n = some m
  ng : ∀ gv, mfind g goal = some gv → goal ∈ op
  domU : ∀ n gv, mfind g n = some gv → n = s ∨ inBoundsA w h n = true
  gcard : ∀ n gv, mfind g n = some gv → gv + 1 ≤ g.length
  gkeys : (g.map Prod.fst).Nodup

/-- The full `a_star` loop invariant: the core, plus the property that every
closed (not-open) cell of `dom g` has all its traversable neighbours
relaxed. -/
structure AppInv (w h : Int) (obstacles : List Cell) (s goal : Cell)
    (op : List Cell) (came : List (Cell × Cell))
    (g f : List (Cell × Nat)) : Prop where
  core : AppCore w h obstacles s goal op came g f
  closedRelax : ∀ n gv, mfind g n = some gv → n ∉ op → ∀ d ∈ dirs,
    inBoundsA w h (addC n d) = true → addC n d ∉ obstacles →
    ∃ gu, mfind g (addC n d) = some gu ∧ gu ≤ gv + 1

/-- The sum of the stored `g`-values. -/
def gSum (g : List (Cell × Nat)) : Nat := (g.map (fun kv => kv.2)).sum

/-- The termination measure of the `a_star` loop: each iteration strictly
decreases it. -/
def appMeasure (w h : Int) (op : List Cell) (g : List (Cell × Nat)) : Nat :=
  op.length + gSum g +
    (w.toNat * h.toNat + 3) * (w.toNat * h.toNat + 1 - g.length)

/-- A rectangular grid: every row has the common length. -/
def RectGrid (grid : Grid) : Prop := ∀ row ∈ grid, row.length = colsOf grid

/-- An obstacle-free grid: every entry is `0`. -/
def AllFree (grid : Grid) : Prop := ∀ row ∈ grid, ∀ v ∈ row, v = 0

/-- A `0/1` grid, the only values the Python code ever stores (free/wall). -/
def ZeroOne (grid : Grid) : Prop := ∀ row ∈ grid, ∀ v ∈ row, v = 0 ∨ v = 1

/-- Every in-bounds cell of a grid, row by row. -/
def allCells (grid : Grid) : List Cell :=
  (List.range (rowsOf grid)).flatMap
    (fun (r : Nat) => (List.range (colsOf grid)).map
      (fun (c : Nat) => ((r : Int), (c : Int))))

/-- The wall cells of a composite grid: the in-bounds cells of value `1`.
Feeding a `nav_pygame` grid to `a_star` means passing exactly these cells
as the obstacle list, with `w = rows` and `h = cols`. -/
def wallCells (grid : Grid) : List Cell :=
  (allCells grid).filter (fun c => cellVal grid c == 1)

/-- An explicit monotone staircase path from `s` to `t` of `fuel` steps,
used (with `fuel = heuristic s t`) to witness shortest paths on
obstacle-free grids: fix the row first, then the column. -/
def pathToward : Nat → Cell → Cell → List Cell
  | 0, s, _ => [s]
  | fuel + 1, s, t =>
      let s2 : Cell :=
        if s.1 < t.1 then (s.1 + 1, s.2)
        else if t.1 < s.1 then (s.1 - 1, s.2)
        else if s.2 < t.2 then (s.1, s.2 + 1)
        else (s.1, s.2 - 1)
      s :: pathToward fuel s2 t

/-! ## Concrete instances used by witnesses and counterexamples -/

/-- A 3-by-3 grid with a centre wall. -/
def gridW1 : Grid := [[0, 0, 0], [0, 1, 0], [0, 0, 0]]

/-- A 2-by-3 obstacle-free grid. -/
def gridFree : Grid := [[0, 0, 0], [0, 0, 0]]

/-- A 1-by-2 grid whose second cell is a wall, so `(0,1)` is unreachable. -/
def gridC3 : Grid := [[0, 1]]

/-- The path `astar` returns on `gridW1` from `(0,0)` to `(2,2)`. -/
def pathW1 : List Cell := [(0, 0), (0, 1), (0, 2), (1, 2), (2, 2)]

/-- A single-row obstacle-free grid with `10^9 + 1` columns: the goal
`(0, 10^9)` is reachable but lies at Manhattan distance `10^9` from
`(0, 0)`, past the `1e9` relaxation threshold of `astar`. -/
def gridMonster : Grid := [List.replicate 1000000001 0]

/-- Start of the monster-grid instance. -/
def sM : Cell := (0, 0)

/-- Goal of the monster-grid instance. -/
def gM : Cell := (0, 1000000000)

/-- A state in mid-outbound motion whose next path cell is blocked by a
dynamic obstacle, forcing a replan on arrival. -/
def stC4 : NavState :=
  { grid := [[0, 0], [0, 0]], start := (0, 0), goal := (1, 1),
    dynamic := [(0, 1)], detected := [], robot_cell := (0, 0),
    path := [(0, 0), (0, 1), (1, 1)], path_index := 0,
    moving := true, returning := false }

/-- The `move_dynamic` merge instance: a 2-by-3 free grid with two obstacles
two cells apart on the top row. -/
def gridC5 : Grid := [[0, 0, 0], [0, 0, 0]]

/-- Start cell of the `move_dynamic` instance. -/
def sC5 : Cell := (1, 0)

/-- Goal cell of the `move_dynamic` instance. -/
def gC5 : Cell := (1, 2)

/-- The two obstacles of the `move_dynamic` instance. -/
def dynC5 : List Cell := [(0, 0), (0, 2)]

/-- Oracle: both obstacles draw below `0.6`, so both attempt to move. -/
def decC5 : Cell → Bool := fun _ => true

/-- Oracle: the shuffles put a step towards `(0,1)` first for both
obstacles, so both move onto `(0,1)`. -/
def ordC5 : Cell → List Cell := fun c =>
  if c = (0, 0) then [(0, 1), (0, 0), (1, 0), (-1, 0), (0, -1)]
  else [(0, -1), (0, 0), (1, 0), (-1, 0), (0, 1)]

/-- A 1-by-2 grid whose second cell is a wall, scanned by a ray geometry
that walks along the row. -/
def gridC6 : Grid := [[0, 1]]

/-- A concrete stand-in ray geometry: every angle walks right along row 0. -/
def rayC6 : Nat → Nat → Cell := fun _ d => (0, (d : Int))

/-- A state standing at the goal with navigation idle. -/
def stC8 : NavState :=
  { grid := [[0]], start := (0, 0), goal := (0, 0),
    dynamic := [], detected := [], robot_cell := (0, 0),
    path := [], path_index := 0, moving := false, returning := false }

/-- An idle state from which navigation can start. -/
def stC9 : NavState :=
  { grid := [[0, 0]], start := (0, 0), goal := (0, 1),
    dynamic := [], detected := [], robot_cell := (0, 0),
    path := [], path_index := 0, moving := false, returning := false }

/-- A state already navigating (`moving` set by the animation thread). -/
def stC9m : NavState :=
  { stC9 with moving := true }

/-! # Theorems -/

/-! ## Utility lemmas -/

theorem mem_addIfAbsent {l : List Cell} {x c : Cell} :
    c ∈ addIfAbsent l x ↔ c ∈ l ∨ c = x := by
  unfold addIfAbsent
  split
  · constructor
    · exact Or.inl
    · rintro (h | rfl)
      · exact h
      · assumption
  · simp

theorem nodup_addIfAbsent {l : List Cell} (h : l.Nodup) (x : Cell) :
    (addIfAbsent l x).Nodup := by
  unfold addIfAbsent
  split
  · exact h
  · rename_i hx
    rw [List.nodup_append]
    refine ⟨h, List.nodup_singleton x, ?_⟩
    intro a ha hb
    rw [List.mem_singleton] at hb
    subst hb
    exact hx ha

theorem length_addIfAbsent (l : List Cell) (x : Cell) :
    (addIfAbsent l x).length ≤ l.length + 1 := by
  unfold addIfAbsent
  split
  · omega
  · simp

theorem subset_addIfAbsent (l : List Cell) (x : Cell) :
    ∀ c ∈ l, c ∈ addIfAbsent l x := by
  intro c hc
  exact mem_addIfAbsent.2 (Or.inl hc)

/-! ## Association-list lemmas -/

theorem mfind_msetU_self {α : Type} (m : List (Cell × α)) (k : Cell) (v : α) :
    mfind (msetU m k v) k = some v := by
  induction m with
  | nil => simp [msetU, mfind]
  | cons kv m ih =>
      obtain ⟨k2, v2⟩ := kv
      rw [msetU]
      split
      · simp [mfind]
      · rename_i hne
        rw [mfind, if_neg hne]
        exact ih

theorem mfind_msetU_ne {α : Type} (m : List (Cell × α)) {k k2 : Cell} (v : α)
    (h : k ≠ k2) : mfind (msetU m k2 v) k = mfind m k := by
  induction m with
  | nil => simp [msetU, mfind, h]
  | cons kv m ih =>
      obtain ⟨k3, v3⟩ := kv
      rw [msetU]
      split
      · rename_i he
        subst he
        rw [mfind, if_neg h, mfind, if_neg h]
      · rw [mfind, mfind]
        split
        · rfl
        · exact ih

theorem mem_keys_of_mfind {α : Type} {m : List (Cell × α)} {k : Cell} {v : α}
    (h : mfind m k = some v) : k ∈ m.map Prod.fst := by
  induction m with
  | nil => simp [mfind] at h
  | cons kv m ih =>
      rw [mfind] at h
      split at h
      · rename_i he
        subst he
        simp
      · simpa using Or.inr (ih h)

theorem mfind_eq_none {α : Type} {m : List (Cell × α)} {k : Cell}
    (h : k ∉ m.map Prod.fst) : mfind m k = none := by
  induction m with
  | nil => simp [mfind]
  | cons kv m ih =>
      simp only [List.map_cons, List.mem_cons] at h
      push_neg at h
      rw [mfind, if_neg h.1]
      exact ih h.2

theorem msetU_keys_of_mem {α : Type} {m : List (Cell × α)} {k : Cell} (v : α)
    (h : k ∈ m.map Prod.fst) : (msetU m k v).map Prod.fst = m.map Prod.fst := by
  induction m with
  | nil => simp at h
  | cons kv m ih =>
      obtain ⟨k2, v2⟩ := kv
      rw [msetU]
      split
      · rename_i he
        subst he
        simp
      · rename_i hne
        simp only [List.map_cons, List.mem_cons] at h
        rcases h with h | h
        · exact absurd h hne
        · simp [ih h]

theorem msetU_keys_of_not_mem {α : Type} {m : List (Cell × α)} {k : Cell} (v : α)
    (h : k ∉ m.map Prod.fst) :
    (msetU m k v).map Prod.fst = m.map Prod.fst ++ [k] := by
  induction m with
  | nil => simp [msetU]
  | cons kv m ih =>
      obtain ⟨k2, v2⟩ := kv
      simp only [List.map_cons, List.mem_cons] at h
      push_neg at h
      rw [msetU, if_neg h.1]
      simp [ih h.2]

theorem msetU_length_of_mem {α : Type} {m : List (Cell × α)} {k : Cell} (v : α)
    (h : k ∈ m.map Prod.fst) : (msetU m k v).length = m.length := by
  have := msetU_keys_of_mem (m := m) v h
  have h1 : ((msetU m k v).map Prod.fst).length = (m.map Prod.fst).length := by rw [this]
  simpa using h1

theorem msetU_length_of_not_mem {α : Type} {m : List (Cell × α)} {k : Cell} (v : α)
    (h : k ∉ m.map Prod.fst) : (msetU m k v).length = m.length + 1 := by
  have := msetU_keys_of_not_mem (m := m) v h
  have h1 : ((msetU m k v).map Prod.fst).length = (m.map Prod.fst).length + 1 := by
    rw [this]; simp
  simpa using h1

theorem gSum_msetU_of_not_mem {m : List (Cell × Nat)} {k : Cell} (v : Nat)
    (h : k ∉ m.map Prod.fst) : gSum (msetU m k v) = gSum m + v := by
  induction m with
  | nil => simp [msetU, gSum]
  | cons kv m ih =>
      obtain ⟨k2, v2⟩ := kv
      simp only [List.map_cons, List.mem_cons] at h
      push_neg at h
      rw [msetU, if_neg h.1]
      simp only [gSum, List.map_cons, List.sum_cons] at ih ⊢
      rw [ih h.2]
      omega

theorem gSum_msetU_of_mfind {m : List (Cell × Nat)} {k : Cell} {v0 : Nat} (v : Nat)
    (h : mfind m k = some v0) : gSum (msetU m k v) + v0 = gSum m + v := by
  induction m with
  | nil => simp [mfind] at h
  | cons kv m ih =>
      obtain ⟨k2, v2⟩ := kv
      rw [mfind] at h
      rw [msetU]
      split
      · rename_i he
        rw [if_pos he] at h
        obtain rfl : v2 = v0 := by simpa using h
        simp only [gSum, List.map_cons, List.sum_cons]
        omega
      · rename_i hne
        rw [if_neg hne] at h
        simp only [gSum, List.map_cons, List.sum_cons] at ih ⊢
        have := ih h
        omega

/-! ## Priority-queue lemmas -/

theorem keyLE_total (a b : Entry) : keyLE a b = true ∨ keyLE b a = true := by
  obtain ⟨a1, a2, a3, a4⟩ := a
  obtain ⟨b1, b2, b3, b4⟩ := b
  simp only [keyLE, cellLE, Bool.or_eq_true, Bool.and_eq_true, decide_eq_true_eq,
    beq_iff_eq]
  omega

theorem keyLE_trans {a b c : Entry} (h1 : keyLE a b = true)
    (h2 : keyLE b c = true) : keyLE a c = true := by
  obtain ⟨a1, a2, a3, a4⟩ := a
  obtain ⟨b1, b2, b3, b4⟩ := b
  obtain ⟨c1, c2, c3, c4⟩ := c
  simp only [keyLE, cellLE, Bool.or_eq_true, Bool.and_eq_true, decide_eq_true_eq,
    beq_iff_eq] at h1 h2 ⊢
  omega

theorem keyLE_fst {a b : Entry} (h : keyLE a b = true) : a.1 ≤ b.1 := by
  obtain ⟨a1, a2, a3, a4⟩ := a
  obtain ⟨b1, b2, b3, b4⟩ := b
  simp only [keyLE, cellLE, Bool.or_eq_true, Bool.and_eq_true, decide_eq_true_eq,
    beq_iff_eq] at h
  omega

theorem mem_pushE {e a : Entry} : ∀ {q : List Entry},
    (a ∈ pushE e q ↔ a = e ∨ a ∈ q)
  | [] => by simp [pushE]
  | x :: xs => by
      rw [pushE]
      split
      · simp
      · simp only [List.mem_cons, mem_pushE (q := xs)]
        tauto

theorem length_pushE (e : Entry) : ∀ (q : List Entry),
    (pushE e q).length = q.length + 1
  | [] => by simp [pushE]
  | x :: xs => by
      rw [pushE]
      split
      · simp
      · simp [length_pushE e xs]

theorem sorted_pushE {q : List Entry}
    (h : q.Pairwise fun a b => keyLE a b = true) (e : Entry) :
    (pushE e q).Pairwise fun a b => keyLE a b = true := by
  induction q with
  | nil => simp [pushE]
  | cons x xs ih =>
      rw [pushE]
      rw [List.pairwise_cons] at h
      split
      · rename_i hle
        rw [List.pairwise_cons]
        refine ⟨?_, List.pairwise_cons.2 h⟩
        intro y hy
        rcases List.mem_cons.1 hy with rfl | hy2
        · exact hle
        · exact keyLE_trans hle (h.1 y hy2)
      · rename_i hnle
        have hxe : keyLE x e = true := by
          rcases keyLE_total e x with h1 | h1
          · exact absurd h1 hnle
          · exact h1
        rw [List.pairwise_cons]
        refine ⟨?_, ih h.2⟩
        intro y hy
        rcases mem_pushE.1 hy with rfl | hy2
        · exact hxe
        · exact h.1 y hy2

/-! ## Min-selection lemmas for `a_star` -/

theorem fkeyLT_irrefl (a : Option Nat) : fkeyLT a a = false := by
  cases a <;> simp [fkeyLT]

theorem fkeyLT_asymm {a b : Option Nat} (h : fkeyLT a b = true) :
    fkeyLT b a = false := by
  cases a <;> cases b <;> simp_all [fkeyLT]
  omega

theorem fkeyLT_lt_of_not_lt {a b c : Option Nat} (h1 : fkeyLT a c = true)
    (h2 : fkeyLT b c = false) : fkeyLT a b = true := by
  cases a <;> cases b <;> cases c <;> simp_all [fkeyLT]
  all_goals omega

theorem minByF_mem {f : List (Cell × Nat)} :
    ∀ {l : List Cell} {c : Cell}, minByF f l = some c → c ∈ l := by
  intro l
  induction l with
  | nil => intro c h; simp [minByF] at h
  | cons x xs ih =>
      intro c h
      rcases he : minByF f xs with _ | b
      · rw [minByF, he] at h
        obtain rfl : x = c := by simpa using h
        exact List.mem_cons_self _ _
      · rw [minByF, he] at h
        dsimp only at h
        split at h
        · obtain rfl : b = c := by simpa using h
          exact List.mem_cons_of_mem _ (ih he)
        · obtain rfl : x = c := by simpa using h
          exact List.mem_cons_self _ _

theorem minByF_none {f : List (Cell × Nat)} :
    ∀ {l : List Cell}, minByF f l = none → l = [] := by
  intro l
  cases l with
  | nil => intro; rfl
  | cons x xs =>
      intro h
      rcases he : minByF f xs with _ | b
      · rw [minByF, he] at h
        simp at h
      · rw [minByF, he] at h
        dsimp only at h
        split at h <;> simp at h

theorem minByF_min {f : List (Cell × Nat)} :
    ∀ {l : List Cell} {c : Cell}, minByF f l = some c →
      ∀ n ∈ l, fkeyLT (mfind f n) (mfind f c) = false := by
  intro l
  induction l with
  | nil => intro c h; simp [minByF] at h
  | cons x xs ih =>
      intro c h n hn
      rcases he : minByF f xs with _ | b
      · rw [minByF, he] at h
        obtain rfl : x = c := by simpa using h
        have : xs = [] := minByF_none he
        subst this
        rcases List.mem_cons.1 hn with rfl | h2
        · exact fkeyLT_irrefl _
        · simp at h2
      · rw [minByF, he] at h
        dsimp only at h
        split at h
        · rename_i hlt
          obtain rfl : b = c := by simpa using h
          rcases List.mem_cons.1 hn with rfl | h2
          · exact fkeyLT_asymm hlt
          · exact ih he n h2
        · rename_i hnlt
          obtain rfl : x = c := by simpa using h
          rcases List.mem_cons.1 hn with rfl | h2
          · exact fkeyLT_irrefl _
          · rw [Bool.not_eq_true] at hnlt
            by_contra hcon
            rw [Bool.not_eq_false] at hcon
            have h3 := fkeyLT_lt_of_not_lt hcon hnlt
            rw [ih he n h2] at h3
            simp at h3

/-! ## Manhattan-distance lemmas -/

theorem heuristic_self (a : Cell) : heuristic a a = 0 := by
  simp [heuristic]

theorem heuristic_triangle (a b c : Cell) :
    heuristic a c ≤ heuristic a b + heuristic b c := by
  obtain ⟨a1, a2⟩ := a
  obtain ⟨b1, b2⟩ := b
  obtain ⟨c1, c2⟩ := c
  simp only [heuristic]
  omega

theorem mem_dirs_cases {d : Cell} (hd : d ∈ dirs) :
    d = (1, 0) ∨ d = (-1, 0) ∨ d = (0, 1) ∨ d = (0, -1) := by
  simpa [dirs] using hd

theorem adjC_heuristic_one {a b : Cell} (h : adjC a b) : heuristic a b = 1 := by
  obtain ⟨d, hd, rfl⟩ := h
  obtain ⟨a1, a2⟩ := a
  rcases mem_dirs_cases hd with rfl | rfl | rfl | rfl <;>
    simp [heuristic, addC]

theorem addC_ne_self {a d : Cell} (hd : d ∈ dirs) : addC a d ≠ a := by
  intro h
  have h1 : heuristic a (addC a d) = 1 := adjC_heuristic_one ⟨d, hd, rfl⟩
  rw [h, heuristic_self] at h1
  exact absurd h1 (by omega)

/-! ## Generic path lemmas -/

theorem chain'_mem_tail {R : Cell → Cell → Prop} :
    ∀ (l : List Cell) (a : Cell), List.Chain' R (a :: l) →
      ∀ c ∈ l, ∃ b, R b c := by
  intro l
  induction l with
  | nil => intro a _ c hc; simp at hc
  | cons b l ih =>
      intro a hch c hc
      rw [List.chain'_cons] at hch
      rcases List.mem_cons.1 hc with rfl | hc2
      · exact ⟨a, hch.1⟩
      · exact ih b hch.2 c hc2

theorem chain_manhattan {R : Cell → Cell → Prop}
    (hR : ∀ a b, R a b → adjC a b) :
    ∀ (p : List Cell) (a t : Cell), List.Chain' R (a :: p) →
      (a :: p).getLast? = some t → heuristic a t ≤ p.length := by
  intro p
  induction p with
  | nil =>
      intro a t _ hlast
      obtain rfl : a = t := by simpa using hlast
      simp [heuristic_self]
  | cons b l ih =>
      intro a t hch hlast
      rw [List.chain'_cons] at hch
      rw [List.getLast?_cons_cons] at hlast
      have h1 := ih b t hch.2 hlast
      have h2 : heuristic a t ≤ heuristic a b + heuristic b t :=
        heuristic_triangle a b t
      have h3 : heuristic a b = 1 := adjC_heuristic_one (hR a b hch.1)
      simp only [List.length_cons]
      omega

theorem validR_length {R : Cell → Cell → Prop}
    (hR : ∀ a b, R a b → adjC a b) {s t : Cell} {p : List Cell}
    (h : ValidPathR R s t p) : heuristic s t + 1 ≤ p.length := by
  obtain ⟨hh, hl, hc⟩ := h
  cases p with
  | nil => simp at hh
  | cons a l =>
      have hhead : a = s := by simpa using hh
      subst hhead
      have := chain_manhattan hR l _ t hc hl
      simp only [List.length_cons]
      omega

theorem validR_singleton {R : Cell → Cell → Prop} (a : Cell) :
    ValidPathR R a a [a] := by
  refine ⟨rfl, rfl, ?_⟩
  simp

theorem validR_append_step {R : Cell → Cell → Prop} {s t u : Cell}
    {p : List Cell} (h : ValidPathR R s t p) (hstep : R t u) :
    ValidPathR R s u (p ++ [u]) := by
  obtain ⟨hh, hl, hc⟩ := h
  have hne : p ≠ [] := by rintro rfl; simp at hh
  refine ⟨?_, ?_, ?_⟩
  · rwa [List.head?_append_of_ne_nil _ hne]
  · simp [List.getLast?_concat]
  · rw [List.chain'_append]
    refine ⟨hc, by simp, ?_⟩
    intro x hx y hy
    rw [hl] at hx
    obtain rfl : t = x := by simpa using hx
    obtain rfl : u = y := by simpa using hy
    exact hstep

theorem validR_cells {R : Cell → Cell → Prop} {s t : Cell} {p : List Cell}
    (h : ValidPathR R s t p) : ∀ c ∈ p, c = s ∨ ∃ b, R b c := by
  obtain ⟨hh, _, hc⟩ := h
  cases p with
  | nil => simp at hh
  | cons a l =>
      have hhead : a = s := by simpa using hh
      subst hhead
      intro c hcm
      rcases List.mem_cons.1 hcm with rfl | h2
      · exact Or.inl rfl
      · exact Or.inr (chain'_mem_tail l _ hc c h2)

/-! ## Path-reconstruction correctness -/

theorem reconstructN_append :
    ∀ (fuel : Nat) (came : List (Cell × Cell)) (cur : Cell) (acc : List Cell),
      reconstructN fuel came cur acc = reconstructN fuel came cur [] ++ acc := by
  intro fuel
  induction fuel with
  | zero => intro came cur acc; simp [reconstructN]
  | succ fuel ih =>
      intro came cur acc
      rcases he : mfind came cur with _ | prev
      · simp [reconstructN, he]
      · simp only [reconstructN, he]
        rw [ih came prev (cur :: acc), ih came prev [cur]]
        simp

theorem reconstruct_valid {R : Cell → Cell → Prop} (s : Cell)
    (came : List (Cell × Cell)) (g : List (Cell × Nat))
    (hstep : ∀ n m, mfind came n = some m → R m n)
    (hg : ∀ n m, mfind came n = some m →
      ∃ gn gm, mfind g n = some gn ∧ mfind g m = some gm ∧ gm < gn)
    (hdom : ∀ n gv, mfind g n = some gv → n = s ∨ ∃ m, mfind came n = some m)
    (hgs : mfind g s = some 0) :
    ∀ gv n, mfind g n = some gv → ∀ fuel, gv < fuel →
      ValidPathR R s n (reconstructN fuel came n []) ∧
      (reconstructN fuel came n []).length ≤ gv + 1 := by
  intro gv
  induction gv using Nat.strong_induction_on with
  | _ gv ih =>
      intro n hn fuel hfuel
      cases fuel with
      | zero => omega
      | succ fuel =>
          rcases he : mfind came n with _ | m
          · simp only [reconstructN, he]
            rcases hdom n gv hn with rfl | ⟨m, hm⟩
            · exact ⟨validR_singleton n, by simp⟩
            · rw [he] at hm; exact absurd hm (by simp)
          · simp only [reconstructN, he]
            obtain ⟨gn, gm, hgn, hgm, hlt⟩ := hg n m he
            obtain rfl : gn = gv := by rw [hn] at hgn; simpa using hgn.symm
            have hmfuel : gm < fuel := by omega
            obtain ⟨hvalid, hlen⟩ := ih gm hlt m hgm fuel hmfuel
            rw [reconstructN_append]
            constructor
            · exact validR_append_step hvalid (hstep n m he)
            · simp only [List.length_append, List.length_cons, List.length_nil]
              omega

/-! ## The staircase path: shortest paths on obstacle-free grids -/

theorem heuristic_eq_zero {s t : Cell} (h : heuristic s t = 0) : s = t := by
  obtain ⟨s1, s2⟩ := s
  obtain ⟨t1, t2⟩ := t
  simp only [heuristic] at h
  have h1 : s1 = t1 := by omega
  have h2 : s2 = t2 := by omega
  simp [h1, h2]

theorem pathToward_spec :
    ∀ (fuel : Nat) (s t : Cell), heuristic s t = fuel →
      (pathToward fuel s t).head? = some s ∧
      (pathToward fuel s t).getLast? = some t ∧
      (pathToward fuel s t).length = fuel + 1 ∧
      List.Chain' adjC (pathToward fuel s t) ∧
      ∀ c ∈ pathToward fuel s t,
        min s.1 t.1 ≤ c.1 ∧ c.1 ≤ max s.1 t.1 ∧
        min s.2 t.2 ≤ c.2 ∧ c.2 ≤ max s.2 t.2 := by
  intro fuel
  induction fuel with
  | zero =>
      intro s t h
      obtain rfl : s = t := heuristic_eq_zero h
      refine ⟨rfl, rfl, rfl, by simp [pathToward], ?_⟩
      intro c hc
      obtain rfl : c = s := by simpa [pathToward] using hc
      omega
  | succ fuel ih =>
      intro s t h
      have key : ∃ s2 : Cell, pathToward (fuel + 1) s t = s :: pathToward fuel s2 t ∧
          adjC s s2 ∧ heuristic s2 t = fuel ∧
          min s.1 t.1 ≤ min s2.1 t.1 ∧ max s2.1 t.1 ≤ max s.1 t.1 ∧
          min s.2 t.2 ≤ min s2.2 t.2 ∧ max s2.2 t.2 ≤ max s.2 t.2 := by
        by_cases h1 : s.1 < t.1
        · refine ⟨(s.1 + 1, s.2), by simp [pathToward, h1],
            ⟨(1, 0), by simp [dirs], by simp [addC]⟩, ?_, ?_, ?_, ?_, ?_⟩ <;>
            (simp only [heuristic] at h ⊢; omega)
        · by_cases h2 : t.1 < s.1
          · refine ⟨(s.1 - 1, s.2), by simp [pathToward, h1, h2],
              ⟨(-1, 0), by simp [dirs], by simp [addC]; omega⟩, ?_, ?_, ?_, ?_, ?_⟩ <;>
              (simp only [heuristic] at h ⊢; omega)
          · by_cases h3 : s.2 < t.2
            · refine ⟨(s.1, s.2 + 1), by simp [pathToward, h1, h2, h3],
                ⟨(0, 1), by simp [dirs], by simp [addC]⟩, ?_, ?_, ?_, ?_, ?_⟩ <;>
                (simp only [heuristic] at h ⊢; omega)
            · refine ⟨(s.1, s.2 - 1), by simp [pathToward, h1, h2, h3],
                ⟨(0, -1), by simp [dirs], by simp [addC]; omega⟩, ?_, ?_, ?_, ?_, ?_⟩ <;>
                (simp only [heuristic] at h ⊢; omega)
      obtain ⟨s2, heq, hadj, hheur, hb1, hb2, hb3, hb4⟩ := key
      obtain ⟨ihh, ihl, ihlen, ihch, ihmem⟩ := ih s2 t hheur
      rw [heq]
      obtain ⟨r1, rest, hrest⟩ : ∃ r1 rest, pathToward fuel s2 t = r1 :: rest := by
        cases hpt : pathToward fuel s2 t with
        | nil => rw [hpt] at ihh; simp at ihh
        | cons r1 rest => exact ⟨r1, rest, rfl⟩
      refine ⟨rfl, ?_, ?_, ?_, ?_⟩
      · rw [hrest, List.getLast?_cons_cons, ← hrest]
        exact ihl
      · simp [ihlen]
      · rw [List.chain'_cons']
        refine ⟨?_, ihch⟩
        intro y hy
        rw [ihh] at hy
        obtain rfl : s2 = y := by simpa using hy
        exact hadj
      · intro c hc
        rcases List.mem_cons.1 hc with rfl | hc2
        · omega
        · have := ihmem c hc2
          omega

theorem allFree_isFree (grid : Grid) (hrect : RectGrid grid)
    (hfree : AllFree grid) {c : Cell} (hc : inB grid c = true) :
    isFree grid c = true := by
  have hb := hc
  simp only [inB, Bool.and_eq_true, decide_eq_true_eq] at hb
  obtain ⟨⟨⟨hb1, hb2⟩, hb3⟩, hb4⟩ := hb
  have hr : c.1.toNat < grid.length := by
    unfold rowsOf at hb2
    omega
  have hrowmem : grid[c.1.toNat] ∈ grid := List.getElem_mem hr
  have hlen : grid[c.1.toNat].length = colsOf grid := hrect _ hrowmem
  have hcn : c.2.toNat < grid[c.1.toNat].length := by
    rw [hlen]
    omega
  have hval : cellVal grid c = 0 := by
    unfold cellVal
    rw [List.getD_eq_getElem grid [] hr, List.getD_eq_getElem _ 1 hcn]
    exact hfree _ hrowmem _ (List.getElem_mem hcn)
  simp [isFree, hc, hval]

theorem chain_stepN_of_adj (grid : Grid) :
    ∀ (p : List Cell), List.Chain' adjC p →
      (∀ c ∈ p, isFree grid c = true) → List.Chain' (stepN grid) p := by
  intro p
  induction p with
  | nil => simp
  | cons a l ih =>
      intro hch hmem
      rw [List.chain'_cons'] at hch ⊢
      refine ⟨?_, ih hch.2 fun c hc => hmem c (List.mem_cons_of_mem _ hc)⟩
      intro y hy
      exact ⟨hch.1 y hy,
        hmem y (List.mem_cons_of_mem _ (List.mem_of_mem_head? hy))⟩

theorem chain_stepA_of_adj (w h : Int) (obstacles : List Cell) :
    ∀ (p : List Cell), List.Chain' adjC p →
      (∀ c ∈ p, inBoundsA w h c = true ∧ c ∉ obstacles) →
      List.Chain' (stepA w h obstacles) p := by
  intro p
  induction p with
  | nil => simp
  | cons a l ih =>
      intro hch hmem
      rw [List.chain'_cons'] at hch ⊢
      refine ⟨?_, ih hch.2 fun c hc => hmem c (List.mem_cons_of_mem _ hc)⟩
      intro y hy
      obtain ⟨hy1, hy2⟩ := hmem y (List.mem_cons_of_mem _ (List.mem_of_mem_head? hy))
      exact ⟨hch.1 y hy, hy1, hy2⟩

/-- On an obstacle-free rectangular grid, any two in-bounds cells are joined
by a valid path of exactly `manhattan + 1` cells. -/
theorem exists_free_path_nav (grid : Grid) (hrect : RectGrid grid)
    (hfree : AllFree grid) {s t : Cell} (hs : inB grid s = true)
    (ht : inB grid t = true) :
    ∃ p, ValidPathN grid s t p ∧ p.length = heuristic s t + 1 := by
  obtain ⟨hh, hl, hlen, hch, hmem⟩ := pathToward_spec (heuristic s t) s t rfl
  refine ⟨pathToward (heuristic s t) s t, ⟨hh, hl, ?_⟩, hlen⟩
  apply chain_stepN_of_adj grid _ hch
  intro c hc
  have hb := hmem c hc
  have hsb := hs
  have htb := ht
  simp only [inB, Bool.and_eq_true, decide_eq_true_eq] at hsb htb
  apply allFree_isFree grid hrect hfree
  simp only [inB, Bool.and_eq_true, decide_eq_true_eq]
  omega

/-- On an obstacle-free `a_star` grid, any two in-bounds cells are joined by
a valid path of exactly `manhattan + 1` cells. -/
theorem exists_free_path_app (w h : Int) {s t : Cell}
    (hs : inBoundsA w h s = true) (ht : inBoundsA w h t = true) :
    ∃ p, ValidPathA w h [] s t p ∧ p.length = heuristic s t + 1 := by
  obtain ⟨hh, hl, hlen, hch, hmem⟩ := pathToward_spec (heuristic s t) s t rfl
  refine ⟨pathToward (heuristic s t) s t, ⟨hh, hl, ?_⟩, hlen⟩
  apply chain_stepA_of_adj w h [] _ hch
  intro c hc
  have hb := hmem c hc
  have hsb := hs
  have htb := ht
  simp only [inBoundsA, Bool.and_eq_true, decide_eq_true_eq] at hsb htb
  refine ⟨?_, by simp⟩
  simp only [inBoundsA, Bool.and_eq_true, decide_eq_true_eq]
  omega

/-! ## Invariant preservation for the `astar` loop -/

theorem isFree_inB {grid : Grid} {c : Cell} (h : isFree grid c = true) :
    inB grid c = true := by
  rw [isFree, Bool.and_eq_true] at h
  exact h.1

theorem stepN_of_dir {grid : Grid} {a : Cell} {d : Cell} (hd : d ∈ dirs)
    (hfree : isFree grid (addC a d) = true) : stepN grid a (addC a d) :=
  ⟨⟨d, hd, rfl⟩, hfree⟩

/-- One accepted relaxation of `astar` (the body of the `if tentative < ...`
on lines 71-74) preserves the core invariant, the freshest-entry property,
and the optimality data; it never touches the popped cell, any visited
cell, or the start. -/
theorem relax_step (grid : Grid) (s goal current : Cell) (gcur : Nat)
    (visited : List Cell) (d : Cell) (hd : d ∈ dirs)
    (q : List Entry) (came : List (Cell × Cell)) (g : List (Cell × Nat))
    (hcore : NavCore grid s goal q came g)
    (hcur : mfind g current = some gcur)
    (hfree : isFree grid (addC current d) = true)
    (hacc : gcur + 1 < (mfind g (addC current d)).getD 1000000000)
    (hfresh : ∀ n gv, mfind g n = some gv → n ∉ current :: visited →
      (gv + heuristic n goal, gv, n) ∈ q)
    (hvopt : ∀ n ∈ visited, ∃ gv, mfind g n = some gv ∧
      ∀ p, ValidPathN grid s n p → gv + 1 ≤ p.length) :
    NavCore grid s goal
      (pushE (gcur + 1 + heuristic (addC current d) goal, gcur + 1, addC current d) q)
      (msetU came (addC current d) current)
      (msetU g (addC current d) (gcur + 1)) ∧
    addC current d ∉ current :: visited ∧
    mfind (msetU g (addC current d) (gcur + 1)) current = some gcur ∧
    (∀ x v, mfind g x = some v →
      ∃ v2, mfind (msetU g (addC current d) (gcur + 1)) x = some v2 ∧ v2 ≤ v) ∧
    (∀ n gv, mfind (msetU g (addC current d) (gcur + 1)) n = some gv →
      n ∉ current :: visited →
      (gv + heuristic n goal, gv, n) ∈
        pushE (gcur + 1 + heuristic (addC current d) goal, gcur + 1, addC current d) q) ∧
    (∀ n ∈ visited, ∃ gv, mfind (msetU g (addC current d) (gcur + 1)) n = some gv ∧
      ∀ p, ValidPathN grid s n p → gv + 1 ≤ p.length) := by
  set nb := addC current d with hnb
  have hnbcur : nb ≠ current := addC_ne_self hd
  obtain ⟨p0, hp0, hlen0⟩ := hcore.gpath current gcur hcur
  have hpnb : ValidPathN grid s nb (p0 ++ [nb]) :=
    validR_append_step hp0 (stepN_of_dir hd hfree)
  have hpnb_len : (p0 ++ [nb]).length ≤ gcur + 2 := by
    simp only [List.length_append, List.length_cons, List.length_nil]
    omega
  have hnbvis : nb ∉ visited := by
    intro hmem
    obtain ⟨gvnb, hgvnb, hopt⟩ := hvopt nb hmem
    have h1 : gvnb + 1 ≤ gcur + 2 := le_trans (hopt _ hpnb) hpnb_len
    rw [hgvnb] at hacc
    simp only [Option.getD_some] at hacc
    omega
  have hnbcv : nb ∉ current :: visited := by
    intro hmem
    rcases List.mem_cons.1 hmem with h1 | h1
    · exact hnbcur h1
    · exact hnbvis h1
  have hnbs : nb ≠ s := by
    intro h1
    rw [h1, hcore.gs] at hacc
    simp at hacc
  have hnb_new : mfind (msetU g nb (gcur + 1)) nb = some (gcur + 1) :=
    mfind_msetU_self g nb (gcur + 1)
  have hold : ∀ x, x ≠ nb → mfind (msetU g nb (gcur + 1)) x = mfind g x :=
    fun x hx => mfind_msetU_ne g (gcur + 1) hx
  have hgmono : ∀ x v, mfind g x = some v →
      ∃ v2, mfind (msetU g nb (gcur + 1)) x = some v2 ∧ v2 ≤ v := by
    intro x v hxv
    by_cases hx : x = nb
    · subst hx
      rw [hxv] at hacc
      simp only [Option.getD_some] at hacc
      exact ⟨gcur + 1, hnb_new, by omega⟩
    · exact ⟨v, by rw [hold x hx]; exact hxv, le_refl v⟩
  have hnb_bound : gcur + 1 < 1000000000 := by
    rcases he : mfind g nb with _ | v
    · rw [he] at hacc; simpa using hacc
    · rw [he] at hacc
      simp only [Option.getD_some] at hacc
      have := hcore.gbound nb v he
      omega
  refine ⟨?_, hnbcv, by rw [hold current (Ne.symm hnbcur)]; exact hcur, hgmono, ?_, ?_⟩
  · refine ⟨sorted_pushE hcore.sorted _, ?_, ?_, ?_, ?_, ?_, ?_, ?_, ?_⟩
    · -- qg
      intro e he
      rcases mem_pushE.1 he with rfl | he2
      · exact ⟨gcur + 1, hnb_new, le_refl _, rfl⟩
      · obtain ⟨gv, hgv, hle, hf⟩ := hcore.qg e he2
        by_cases hx : e.2.2 = nb
        · rw [hx] at hgv ⊢
          rw [hgv] at hacc
          simp only [Option.getD_some] at hacc
          exact ⟨gcur + 1, hnb_new, by omega, by rw [hx] at hf; exact hf⟩
        · exact ⟨gv, by rw [hold _ hx]; exact hgv, hle, hf⟩
    · -- qU
      intro e he
      rcases mem_pushE.1 he with rfl | he2
      · exact Or.inr (isFree_inB hfree)
      · exact hcore.qU e he2
    · -- gpath
      intro n gv hn
      by_cases hx : n = nb
      · subst hx
        rw [hnb_new] at hn
        obtain rfl : gcur + 1 = gv := by simpa using hn
        exact ⟨p0 ++ [nb], hpnb, by omega⟩
      · rw [hold n hx] at hn
        exact hcore.gpath n gv hn
    · -- gbound
      intro n gv hn
      by_cases hx : n = nb
      · subst hx
        rw [hnb_new] at hn
        obtain rfl : gcur + 1 = gv := by simpa using hn
        exact hnb_bound
      · rw [hold n hx] at hn
        exact hcore.gbound n gv hn
    · -- gs
      rw [hold s (fun h1 => hnbs h1.symm)]
      exact hcore.gs
    · -- came_step
      intro n m hn
      by_cases hx : n = nb
      · subst hx
        rw [mfind_msetU_self] at hn
        obtain rfl : current = m := by simpa using hn
        exact stepN_of_dir hd hfree
      · rw [mfind_msetU_ne came current hx] at hn
        exact hcore.came_step n m hn
    · -- came_g
      intro n m hn
      by_cases hx : n = nb
      · subst hx
        rw [mfind_msetU_self] at hn
        obtain rfl : current = m := by simpa using hn
        exact ⟨gcur + 1, gcur, hnb_new, by rw [hold current (Ne.symm hnbcur)]; exact hcur, by omega⟩
      · rw [mfind_msetU_ne came current hx] at hn
        obtain ⟨gn, gm, hgn, hgm, hlt⟩ := hcore.came_g n m hn
        obtain ⟨gm2, hgm2, hgm2le⟩ := hgmono m gm hgm
        exact ⟨gn, gm2, by rw [hold n hx]; exact hgn, hgm2, by omega⟩
    · -- came_dom
      intro n gv hn
      by_cases hx : n = nb
      · subst hx
        exact Or.inr ⟨current, mfind_msetU_self came nb current⟩
      · rw [hold n hx] at hn
        rcases hcore.came_dom n gv hn with h1 | ⟨m, hm⟩
        · exact Or.inl h1
        · exact Or.inr ⟨m, by rw [mfind_msetU_ne came current hx]; exact hm⟩
  · -- fresh
    intro n gv hn hncv
    by_cases hx : n = nb
    · subst hx
      rw [hnb_new] at hn
      obtain rfl : gcur + 1 = gv := by simpa using hn
      exact mem_pushE.2 (Or.inl rfl)
    · rw [hold n hx] at hn
      exact mem_pushE.2 (Or.inr (hfresh n gv hn hncv))
  · -- vopt
    intro n hnv
    obtain ⟨gv, hgv, hopt⟩ := hvopt n hnv
    refine ⟨gv, ?_, hopt⟩
    rw [hold n (fun h1 => hnbvis (h1 ▸ hnv))]
    exact hgv

/-- The relaxation loop of `astar` (lines 67-74) preserves the invariant:
after expanding `current` over the direction list `ds`, the core invariant
holds, `g`-values only decrease, `g` is untouched on `current` and the
visited cells, the freshest-entry property holds away from
`current :: visited`, every direction of `ds` is fully relaxed, and at most
one entry per direction was pushed. -/
theorem expandN_spec (grid : Grid) (s goal current : Cell) (gcur : Nat)
    (visited : List Cell) :
    ∀ (ds : List Cell) (q : List Entry) (came : List (Cell × Cell))
      (g : List (Cell × Nat)),
      (∀ d ∈ ds, d ∈ dirs) →
      NavCore grid s goal q came g →
      mfind g current = some gcur →
      (∀ n gv, mfind g n = some gv → n ∉ current :: visited →
        (gv + heuristic n goal, gv, n) ∈ q) →
      (∀ n ∈ visited, ∃ gv, mfind g n = some gv ∧
        ∀ p, ValidPathN grid s n p → gv + 1 ≤ p.length) →
      NavCore grid s goal (expandN grid goal current gcur ds (q, came, g)).1
        (expandN grid goal current gcur ds (q, came, g)).2.1
        (expandN grid goal current gcur ds (q, came, g)).2.2 ∧
      (∀ x v, mfind g x = some v →
        ∃ v2, mfind (expandN grid goal current gcur ds (q, came, g)).2.2 x = some v2 ∧
          v2 ≤ v) ∧
      (∀ x ∈ current :: visited,
        mfind (expandN grid goal current gcur ds (q, came, g)).2.2 x = mfind g x) ∧
      (∀ n gv, mfind (expandN grid goal current gcur ds (q, came, g)).2.2 n = some gv →
        n ∉ current :: visited →
        (gv + heuristic n goal, gv, n) ∈
          (expandN grid goal current gcur ds (q, came, g)).1) ∧
      (∀ d ∈ ds, isFree grid (addC current d) = true → gcur + 1 < 1000000000 →
        ∃ gu, mfind (expandN grid goal current gcur ds (q, came, g)).2.2
            (addC current d) = some gu ∧ gu ≤ gcur + 1) ∧
      (expandN grid goal current gcur ds (q, came, g)).1.length ≤
        q.length + ds.length := by
  intro ds
  induction ds with
  | nil =>
      intro q came g _ hcore hcur hfresh _
      simp only [expandN]
      refine ⟨hcore, fun x v hxv => ⟨v, hxv, le_refl v⟩, ?_, hfresh,
        fun d hd => absurd hd (List.not_mem_nil d), by simp⟩
      simp
  | cons d ds ih =>
      intro q came g hsub hcore hcur hfresh hvopt
      have hd : d ∈ dirs := hsub d (List.mem_cons_self _ _)
      have hsub2 : ∀ d2 ∈ ds, d2 ∈ dirs := fun d2 h2 => hsub d2 (List.mem_cons_of_mem _ h2)
      simp only [expandN]
      by_cases hfree : isFree grid (addC current d) = true
      · rw [if_pos hfree]
        by_cases hacc : gcur + 1 < (mfind g (addC current d)).getD 1000000000
        · rw [if_pos hacc]
          obtain ⟨hcore2, hnbcv, hcur2, hmono2, hfresh2, hvopt2⟩ :=
            relax_step grid s goal current gcur visited d hd q came g hcore hcur
              hfree hacc hfresh hvopt
          obtain ⟨C1, C2, C3, C4, C5, C6⟩ :=
            ih _ _ _ hsub2 hcore2 hcur2 hfresh2 hvopt2
          refine ⟨C1, ?_, ?_, C4, ?_, ?_⟩
          · intro x v hxv
            obtain ⟨v2, h2, hle2⟩ := hmono2 x v hxv
            obtain ⟨v3, h3, hle3⟩ := C2 x v2 h2
            exact ⟨v3, h3, by omega⟩
          · intro x hx
            rw [C3 x hx]
            exact mfind_msetU_ne g (gcur + 1) (fun h1 => hnbcv (h1 ▸ hx))
          · intro d2 hd2 hfree2 hb
            rcases List.mem_cons.1 hd2 with rfl | hd3
            · obtain ⟨v3, h3, hle3⟩ :=
                C2 (addC current d2) (gcur + 1) (mfind_msetU_self g _ _)
              exact ⟨v3, h3, hle3⟩
            · exact C5 d2 hd3 hfree2 hb
          · rw [length_pushE] at C6
            simp only [List.length_cons]
            omega
        · rw [if_neg hacc]
          obtain ⟨C1, C2, C3, C4, C5, C6⟩ := ih q came g hsub2 hcore hcur hfresh hvopt
          refine ⟨C1, C2, C3, C4, ?_, ?_⟩
          · intro d2 hd2 hfree2 hb
            rcases List.mem_cons.1 hd2 with rfl | hd3
            · rcases he : mfind g (addC current d2) with _ | v
              · rw [he] at hacc
                simp only [Option.getD_none] at hacc
                omega
              · rw [he] at hacc
                simp only [Option.getD_some] at hacc
                obtain ⟨v2, h2, hle2⟩ := C2 (addC current d2) v he
                exact ⟨v2, h2, by omega⟩
            · exact C5 d2 hd3 hfree2 hb
          · simp only [List.length_cons]
            omega
      · rw [if_neg hfree]
        obtain ⟨C1, C2, C3, C4, C5, C6⟩ := ih q came g hsub2 hcore hcur hfresh hvopt
        refine ⟨C1, C2, C3, C4, ?_, ?_⟩
        · intro d2 hd2 hfree2 hb
          rcases List.mem_cons.1 hd2 with rfl | hd3
          · exact absurd hfree2 hfree
          · exact C5 d2 hd3 hfree2 hb
        · simp only [List.length_cons]
          omega

/-- The frontier-witness lemma: walking any valid path whose endpoint is
unvisited, the open queue holds an entry whose `f`-value is at most the path
length plus the endpoint heuristic.  The walk steps through visited cells
using `vx` (their neighbours are relaxed, with optimal `g` by `vopt`), and
stops at the first unvisited cell, whose freshest entry is on the queue; the
consistency of the Manhattan heuristic bounds that entry's `f`-value. -/
theorem nav_witness (grid : Grid) (goal : Cell) (q : List Entry)
    (g : List (Cell × Nat)) (visited : List Cell)
    (hfresh : ∀ n gv, mfind g n = some gv → n ∉ visited →
      (gv + heuristic n goal, gv, n) ∈ q)
    (hvx : ∀ n ∈ visited, ∀ gv, mfind g n = some gv → relaxedAt grid g n gv) :
    ∀ (p : List Cell) (y z : Cell) (jy gy l : Nat),
      (y :: p).getLast? = some z → List.Chain' (stepN grid) (y :: p) →
      mfind g y = some gy → gy ≤ jy → jy + p.length ≤ l → l < 1000000000 →
      z ∉ visited →
      ∃ e ∈ q, e.1 ≤ l + heuristic z goal := by
  intro p
  induction p with
  | nil =>
      intro y z jy gy l hlast _ hgy hjy hbud hl hz
      obtain rfl : y = z := by simpa using hlast
      refine ⟨(gy + heuristic y goal, gy, y), hfresh y gy hgy hz, ?_⟩
      simp only [List.length_nil, Nat.add_zero] at hbud
      simp only
      omega
  | cons y2 rest ih =>
      intro y z jy gy l hlast hch hgy hjy hbud hl hz
      have hlast2 : (y2 :: rest).getLast? = some z := by
        rw [List.getLast?_cons_cons] at hlast
        exact hlast
      have hch2 := (List.chain'_cons.1 hch).2
      have hstep : stepN grid y y2 := (List.chain'_cons.1 hch).1
      by_cases hy : y ∈ visited
      · obtain ⟨⟨d, hd, rfl⟩, hfree⟩ := hstep
        obtain ⟨gy2, hgy2, hle⟩ := hvx y hy gy hgy d hd hfree
          (by simp only [List.length_cons] at hbud; omega)
        apply ih (addC y d) z (jy + 1) gy2 l hlast2 hch2 hgy2 (by omega)
          (by simp only [List.length_cons] at hbud; omega) hl hz
      · refine ⟨(gy + heuristic y goal, gy, y), hfresh y gy hgy hy, ?_⟩
        have htri : heuristic y goal ≤ heuristic y z + heuristic z goal :=
          heuristic_triangle y z goal
        have hyz : heuristic y z ≤ (y2 :: rest).length :=
          chain_manhattan (R := stepN grid) (fun a b hab => hab.1)
            (y2 :: rest) y z hch hlast
        simp only [List.length_cons] at hyz hbud
        simp only
        omega

theorem nav_witness_start (grid : Grid) (s goal : Cell) (q : List Entry)
    (came : List (Cell × Cell)) (g : List (Cell × Nat)) (visited : List Cell)
    (hinv : NavInv grid s goal q came g visited)
    (z : Cell) (P : List Cell) (hP : ValidPathN grid s z P) (l : Nat)
    (hlen : P.length = l + 1) (hl : l < 1000000000) (hz : z ∉ visited) :
    ∃ e ∈ q, e.1 ≤ l + heuristic z goal := by
  obtain ⟨hh, hlast, hch⟩ := hP
  cases P with
  | nil => simp at hh
  | cons y rest =>
      have hys : y = s := by simpa using hh
      subst hys
      apply nav_witness grid goal q g visited hinv.fresh hinv.vx rest y z 0 0 l
        hlast hch hinv.core.gs (le_refl 0) ?_ hl hz
      simp only [List.length_cons] at hlen
      omega

theorem pop_current_opt (grid : Grid) (s goal : Cell) (f0 c0 : Nat)
    (current : Cell) (q2 : List Entry) (came : List (Cell × Cell))
    (g : List (Cell × Nat)) (visited : List Cell)
    (hinv : NavInv grid s goal ((f0, c0, current) :: q2) came g visited)
    (hcv : current ∉ visited) (gcur : Nat)
    (hgcur : mfind g current = some gcur) :
    ∀ p, ValidPathN grid s current p → gcur + 1 ≤ p.length := by
  intro p hp
  rcases Nat.lt_or_ge p.length (1000000000 + 1) with hbig | hbig
  · have hpos : 1 ≤ p.length := by
      have := validR_length (R := stepN grid) (fun a b hab => hab.1) hp
      omega
    obtain ⟨l, hl⟩ : ∃ l, p.length = l + 1 := ⟨p.length - 1, by omega⟩
    obtain ⟨e, he, hef⟩ := nav_witness_start grid s goal _ came g visited hinv
      current p hp l hl (by omega) hcv
    have hmin : f0 ≤ e.1 := by
      rcases List.mem_cons.1 he with rfl | he2
      · exact le_refl _
      · exact keyLE_fst ((List.pairwise_cons.1 hinv.core.sorted).1 e he2)
    obtain ⟨gv2, hgv2, hle2, hff⟩ :=
      hinv.core.qg (f0, c0, current) (List.mem_cons_self _ _)
    rw [hgcur] at hgv2
    obtain rfl : gcur = gv2 := by simpa using hgv2
    simp only at hle2 hff
    omega
  · have := hinv.core.gbound current gcur hgcur
    omega

theorem mem_navUniv (grid : Grid) (s : Cell) {c : Cell}
    (hc : c = s ∨ inB grid c = true) : c ∈ navUniv grid s := by
  rcases hc with rfl | hb
  · simp [navUniv]
  · simp only [inB, Bool.and_eq_true, decide_eq_true_eq] at hb
    obtain ⟨⟨⟨hb1, hb2⟩, hb3⟩, hb4⟩ := hb
    simp only [navUniv, Finset.mem_insert]
    right
    simp only [Finset.mem_image, Finset.mem_product, Finset.mem_range]
    refine ⟨(c.1.toNat, c.2.toNat), ⟨by omega, by omega⟩, ?_⟩
    have h1 : (c.1.toNat : Int) = c.1 := Int.toNat_of_nonneg hb1
    have h2 : (c.2.toNat : Int) = c.2 := Int.toNat_of_nonneg hb3
    simp only
    rw [h1, h2]

theorem navUniv_card (grid : Grid) (s : Cell) :
    (navUniv grid s).card ≤ rowsOf grid * colsOf grid + 1 := by
  unfold navUniv
  apply le_trans (Finset.card_insert_le _ _)
  have h1 := Finset.card_image_le
    (s := Finset.range (rowsOf grid) ×ˢ Finset.range (colsOf grid))
    (f := fun rc : Nat × Nat => ((rc.1 : Int), (rc.2 : Int)))
  rw [Finset.card_product, Finset.card_range, Finset.card_range] at h1
  omega

theorem unvisitedCard_le (grid : Grid) (s : Cell) (visited : List Cell) :
    unvisitedCard grid s visited ≤ (navUniv grid s).card :=
  Finset.card_filter_le _ _

theorem unvisited_decrease (grid : Grid) (s : Cell) (visited : List Cell)
    (current : Cell) (hc : current ∈ navUniv grid s)
    (hcv : current ∉ visited) :
    unvisitedCard grid s (current :: visited) + 1 ≤
      unvisitedCard grid s visited := by
  unfold unvisitedCard
  have hss : (navUniv grid s).filter (fun c => c ∉ current :: visited) ⊂
      (navUniv grid s).filter (fun c => c ∉ visited) := by
    constructor
    · intro c hcm
      simp only [Finset.mem_filter, List.mem_cons] at hcm ⊢
      exact ⟨hcm.1, fun h1 => hcm.2 (Or.inr h1)⟩
    · intro hsub
      have h1 : current ∈ (navUniv grid s).filter (fun c => c ∉ visited) := by
        simp only [Finset.mem_filter]
        exact ⟨hc, hcv⟩
      have h2 := hsub h1
      rw [Finset.mem_filter] at h2
      exact h2.2 (List.mem_cons_self _ _)
  exact Finset.card_lt_card hss

/-- The main induction over the `astar` loop: under the invariant, (1) any
returned path is a valid shortest path (of length below the relaxation
threshold), (2) the stated fuel suffices, (3) the queue cannot be exhausted
while the goal is reachable within the threshold. -/
theorem astarLoop_main (grid : Grid) (s goal : Cell) :
    ∀ (fuel : Nat) (q : List Entry) (came : List (Cell × Cell))
      (g : List (Cell × Nat)) (visited : List Cell),
      NavInv grid s goal q came g visited →
      (∀ res, astarLoop grid goal fuel q came g visited = some (some res) →
        ValidPathN grid s goal res ∧ res.length ≤ 1000000000 ∧
        ∀ P l, ValidPathN grid s goal P → P.length = l + 1 → l < 1000000000 →
          res.length ≤ l + 1) ∧
      (q.length + 4 * unvisitedCard grid s visited + 1 ≤ fuel →
        astarLoop grid goal fuel q came g visited ≠ none) ∧
      ((∃ P l, ValidPathN grid s goal P ∧ P.length = l + 1 ∧ l < 1000000000) →
        astarLoop grid goal fuel q came g visited ≠ some none) := by
  intro fuel
  induction fuel with
  | zero =>
      intro q came g visited _
      refine ⟨?_, ?_, ?_⟩
      · intro res h
        rw [astarLoop] at h
        exact absurd h (by simp)
      · intro hle
        omega
      · intro _ h
        rw [astarLoop] at h
        exact absurd h (by simp)
  | succ fuel ih =>
      intro q came g visited hinv
      cases q with
      | nil =>
          refine ⟨?_, ?_, ?_⟩
          · intro res h
            rw [astarLoop] at h
            exact absurd h (by simp)
          · intro _ h
            rw [astarLoop] at h
            exact absurd h (by simp)
          · rintro ⟨P, l, hP, hPlen, hl⟩ _
            obtain ⟨e, he, _⟩ := nav_witness_start grid s goal [] came g visited
              hinv goal P hP l hPlen hl hinv.gnv
            exact absurd he (List.not_mem_nil e)
      | cons e0 q2 =>
          obtain ⟨f0, c0, current⟩ := e0
          by_cases hgoal : current = goal
          · subst hgoal
            have hres : astarLoop grid current (fuel + 1)
                ((f0, c0, current) :: q2) came g visited =
                some (some (reconstructN 1000000000 came current [])) := by
              rw [astarLoop, if_pos rfl]
            obtain ⟨gvg, hgvg, hle0, hff⟩ :=
              hinv.core.qg (f0, c0, current) (List.mem_cons_self _ _)
            simp only at hgvg hle0 hff
            rw [heuristic_self] at hff
            obtain ⟨hvalid, hlen⟩ := reconstruct_valid (R := stepN grid) s came g
              hinv.core.came_step hinv.core.came_g hinv.core.came_dom
              hinv.core.gs gvg current hgvg 1000000000
              (hinv.core.gbound current gvg hgvg)
            refine ⟨?_, ?_, ?_⟩
            · intro res h
              rw [hres] at h
              obtain rfl : reconstructN 1000000000 came current [] = res := by
                simpa using h
              refine ⟨hvalid, by have := hinv.core.gbound current gvg hgvg; omega, ?_⟩
              intro P l hP hPlen hl
              obtain ⟨e, he, hef⟩ := nav_witness_start grid s current _ came g
                visited hinv current P hP l hPlen hl hinv.gnv
              rw [heuristic_self] at hef
              have hmin : f0 ≤ e.1 := by
                rcases List.mem_cons.1 he with rfl | he2
                · exact le_refl _
                · exact keyLE_fst ((List.pairwise_cons.1 hinv.core.sorted).1 e he2)
              omega
            · intro _
              rw [hres]
              simp
            · intro _
              rw [hres]
              simp
          · by_cases hvis : current ∈ visited
            · have hres : astarLoop grid goal (fuel + 1)
                  ((f0, c0, current) :: q2) came g visited =
                  astarLoop grid goal fuel q2 came g visited := by
                rw [astarLoop, if_neg hgoal, if_pos hvis]
              have hinv2 : NavInv grid s goal q2 came g visited := by
                refine ⟨⟨(List.pairwise_cons.1 hinv.core.sorted).2, ?_, ?_,
                  hinv.core.gpath, hinv.core.gbound, hinv.core.gs,
                  hinv.core.came_step, hinv.core.came_g, hinv.core.came_dom⟩,
                  ?_, hinv.vopt, hinv.vx, hinv.gnv⟩
                · intro e he
                  exact hinv.core.qg e (List.mem_cons_of_mem _ he)
                · intro e he
                  exact hinv.core.qU e (List.mem_cons_of_mem _ he)
                · intro n gv hn hnv
                  rcases List.mem_cons.1 (hinv.fresh n gv hn hnv) with he | he
                  · exfalso
                    have hn2 : n = current := by
                      have := congrArg (fun x : Entry => x.2.2) he
                      simpa using this
                    rw [hn2] at hnv
                    exact hnv hvis
                  · exact he
              obtain ⟨C1, C2, C3⟩ := ih q2 came g visited hinv2
              refine ⟨?_, ?_, ?_⟩
              · intro res h
                rw [hres] at h
                exact C1 res h
              · intro hfe h
                rw [hres] at h
                apply C2 ?_ h
                simp only [List.length_cons] at hfe
                omega
              · intro hex h
                rw [hres] at h
                exact C3 hex h
            · obtain ⟨gv, hgv, hle0, hff⟩ :=
                hinv.core.qg (f0, c0, current) (List.mem_cons_self _ _)
              simp only at hgv hle0 hff
              have hgetD : (mfind g current).getD 0 = gv := by rw [hgv]; rfl
              have hres : astarLoop grid goal (fuel + 1)
                  ((f0, c0, current) :: q2) came g visited =
                  astarLoop grid goal fuel
                    (expandN grid goal current gv dirs (q2, came, g)).1
                    (expandN grid goal current gv dirs (q2, came, g)).2.1
                    (expandN grid goal current gv dirs (q2, came, g)).2.2
                    (current :: visited) := by
                rw [astarLoop, if_neg hgoal, if_neg hvis, hgetD]
              have hcore2 : NavCore grid s goal q2 came g := by
                refine ⟨(List.pairwise_cons.1 hinv.core.sorted).2, ?_, ?_,
                  hinv.core.gpath, hinv.core.gbound, hinv.core.gs,
                  hinv.core.came_step, hinv.core.came_g, hinv.core.came_dom⟩
                · intro e he
                  exact hinv.core.qg e (List.mem_cons_of_mem _ he)
                · intro e he
                  exact hinv.core.qU e (List.mem_cons_of_mem _ he)
              have hfresh2 : ∀ n gv2, mfind g n = some gv2 →
                  n ∉ current :: visited →
                  (gv2 + heuristic n goal, gv2, n) ∈ q2 := by
                intro n gv2 hn hncv
                have hnv : n ∉ visited := fun h1 => hncv (List.mem_cons_of_mem _ h1)
                rcases List.mem_cons.1 (hinv.fresh n gv2 hn hnv) with he | he
                · exfalso
                  have hn2 : n = current := by
                    have := congrArg (fun x : Entry => x.2.2) he
                    simpa using this
                  exact hncv (hn2 ▸ List.mem_cons_self _ _)
                · exact he
              obtain ⟨C1, C2, C3, C4, C5, C6⟩ :=
                expandN_spec grid s goal current gv visited dirs q2 came g
                  (fun d hd => hd) hcore2 hgv hfresh2 hinv.vopt
              have hcur_opt := pop_current_opt grid s goal f0 c0 current q2 came
                g visited hinv hvis gv hgv
              have hinv2 : NavInv grid s goal
                  (expandN grid goal current gv dirs (q2, came, g)).1
                  (expandN grid goal current gv dirs (q2, came, g)).2.1
                  (expandN grid goal current gv dirs (q2, came, g)).2.2
                  (current :: visited) := by
                refine ⟨C1, C4, ?_, ?_, ?_⟩
                · intro n hn
                  rcases List.mem_cons.1 hn with rfl | hn2
                  · refine ⟨gv, ?_, hcur_opt⟩
                    rw [C3 n (List.mem_cons_self _ _)]
                    exact hgv
                  · obtain ⟨gvn, hgvn, hopt⟩ := hinv.vopt n hn2
                    refine ⟨gvn, ?_, hopt⟩
                    rw [C3 n (List.mem_cons_of_mem _ hn2)]
                    exact hgvn
                · intro n hn gvx hgvx d hd hfree hb
                  rcases List.mem_cons.1 hn with rfl | hn2
                  · rw [C3 n (List.mem_cons_self _ _), hgv] at hgvx
                    obtain rfl : gv = gvx := by simpa using hgvx
                    exact C5 d hd hfree hb
                  · rw [C3 n (List.mem_cons_of_mem _ hn2)] at hgvx
                    obtain ⟨gu, hgu, hgule⟩ := hinv.vx n hn2 gvx hgvx d hd hfree hb
                    obtain ⟨gu2, hgu2, hgu2le⟩ := C2 _ gu hgu
                    exact ⟨gu2, hgu2, by omega⟩
                · intro hmem
                  rcases List.mem_cons.1 hmem with h1 | h1
                  · exact hgoal h1.symm
                  · exact hinv.gnv h1
              obtain ⟨D1, D2, D3⟩ := ih _ _ _ _ hinv2
              have hcu : current ∈ navUniv grid s :=
                mem_navUniv grid s (hinv.core.qU (f0, c0, current)
                  (List.mem_cons_self _ _))
              refine ⟨?_, ?_, ?_⟩
              · intro res h
                rw [hres] at h
                exact D1 res h
              · intro hfe h
                rw [hres] at h
                apply D2 ?_ h
                have hdec := unvisited_decrease grid s visited current hcu hvis
                have hlen4 : dirs.length = 4 := rfl
                rw [hlen4] at C6
                simp only [List.length_cons] at hfe
                omega
              · intro hex h
                rw [hres] at h
                exact D3 hex h

theorem mfind_singleton {α : Type} (k n : Cell) (v : α) :
    mfind [(k, v)] n = if n = k then some v else none := by
  rw [mfind]
  split
  · rfl
  · rw [mfind]

/-- The initial `astar` state (lines 50-54) satisfies the loop invariant. -/
theorem navInv_init (grid : Grid) (s goal : Cell) :
    NavInv grid s goal [(heuristic s goal, 0, s)] [] [(s, 0)] [] := by
  have hfind : ∀ n gv, mfind [(s, (0 : Nat))] n = some gv → n = s ∧ gv = 0 := by
    intro n gv hn
    rw [mfind_singleton] at hn
    split at hn
    · rename_i h1
      exact ⟨h1, by simpa using hn.symm⟩
    · simp at hn
  refine ⟨⟨?_, ?_, ?_, ?_, ?_, ?_, ?_, ?_, ?_⟩, ?_, ?_, ?_, ?_⟩
  · simp
  · intro e he
    obtain rfl : e = (heuristic s goal, 0, s) := by simpa using he
    exact ⟨0, by rw [mfind_singleton]; simp, le_refl _, by simp⟩
  · intro e he
    obtain rfl : e = (heuristic s goal, 0, s) := by simpa using he
    exact Or.inl rfl
  · intro n gv hn
    obtain ⟨rfl, rfl⟩ := hfind n gv hn
    exact ⟨[n], validR_singleton n, by simp⟩
  · intro n gv hn
    obtain ⟨rfl, rfl⟩ := hfind n gv hn
    omega
  · rw [mfind_singleton]
    simp
  · intro n m hn
    rw [mfind] at hn
    exact absurd hn (by simp)
  · intro n m hn
    rw [mfind] at hn
    exact absurd hn (by simp)
  · intro n gv hn
    exact Or.inl (hfind n gv hn).1
  · intro n gv hn _
    obtain ⟨rfl, rfl⟩ := hfind n gv hn
    simp
  · intro n hn
    exact absurd hn (List.not_mem_nil n)
  · intro n hn
    exact absurd hn (List.not_mem_nil n)
  · exact List.not_mem_nil goal

/-- Soundness and optimality of `astar`: a returned path is a valid path
from start to goal, has fewer than `10^9 + 1` cells, and is no longer than
any valid path whose step count is below the `1e9` relaxation threshold. -/
theorem astar_sound (grid : Grid) (s goal : Cell) (p : List Cell)
    (h : astar grid s goal = some p) :
    ValidPathN grid s goal p ∧ p.length ≤ 1000000000 ∧
    ∀ P l, ValidPathN grid s goal P → P.length = l + 1 → l < 1000000000 →
      p.length ≤ l + 1 := by
  obtain ⟨A1, _, _⟩ := astarLoop_main grid s goal (astarFuel grid)
    [(heuristic s goal, 0, s)] [] [(s, 0)] [] (navInv_init grid s goal)
  unfold astar astarRun at h
  rcases he : astarLoop grid goal (astarFuel grid)
      [(heuristic s goal, 0, s)] [] [(s, 0)] [] with _ | r
  · rw [he] at h
    simp at h
  · rw [he] at h
    cases r with
    | none => simp at h
    | some res =>
        obtain rfl : res = p := by simpa using h
        exact A1 res he

/-- Completeness of `astar`: if the goal is reachable by a path below the
relaxation threshold, some path is returned. -/
theorem astar_complete (grid : Grid) (s goal : Cell) (P : List Cell) (l : Nat)
    (hP : ValidPathN grid s goal P) (hPlen : P.length = l + 1)
    (hl : l < 1000000000) :
    ∃ p, astar grid s goal = some p := by
  obtain ⟨_, A2, A3⟩ := astarLoop_main grid s goal (astarFuel grid)
    [(heuristic s goal, 0, s)] [] [(s, 0)] [] (navInv_init grid s goal)
  have hfuel : ([(heuristic s goal, 0, s)] : List Entry).length +
      4 * unvisitedCard grid s [] + 1 ≤ astarFuel grid := by
    have h1 := unvisitedCard_le grid s []
    have h2 := navUniv_card grid s
    unfold astarFuel
    simp only [List.length_cons, List.length_nil]
    omega
  have hne := A2 hfuel
  have hne2 := A3 ⟨P, l, hP, hPlen, hl⟩
  unfold astar astarRun
  rcases he : astarLoop grid goal (astarFuel grid)
      [(heuristic s goal, 0, s)] [] [(s, 0)] [] with _ | r
  · exact absurd he hne
  · cases r with
    | none => exact absurd he hne2
    | some res => exact ⟨res, rfl⟩

/-- On an obstacle-free rectangular grid with the goal within the relaxation
threshold, `astar` returns a path of exactly `manhattan + 1` cells. -/
theorem astar_free_grid (grid : Grid) (hrect : RectGrid grid)
    (hfree : AllFree grid) {s t : Cell} (hs : inB grid s = true)
    (ht : inB grid t = true) (hsmall : heuristic s t < 1000000000) :
    (astar grid s t).map List.length = some (heuristic s t + 1) := by
  obtain ⟨P, hP, hPlen⟩ := exists_free_path_nav grid hrect hfree hs ht
  obtain ⟨p, hp⟩ := astar_complete grid s t P (heuristic s t) hP hPlen hsmall
  obtain ⟨hvalid, _, hopt⟩ := astar_sound grid s t p hp
  have hge := validR_length (R := stepN grid) (fun a b hab => hab.1) hvalid
  have hle := hopt P (heuristic s t) hP hPlen hsmall
  rw [hp]
  have hplen : p.length = heuristic s t + 1 := by omega
  simp [hplen]

/-- On the monster grid, `astar` returns `None`: the goal sits at Manhattan
distance `10^9`, and the relaxation guard `tentative < 1e9` (line 71 of
`nav_pygame.py`) can never assign it a `g`-value. -/
theorem astar_monster_none : astar gridMonster sM gM = none := by
  cases he : astar gridMonster sM gM with
  | none => rfl
  | some p =>
      obtain ⟨hvalid, hbound, _⟩ := astar_sound _ _ _ p he
      have hge := validR_length (R := stepN gridMonster)
        (fun a b hab => hab.1) hvalid
      have hh : heuristic sM gM = 1000000000 := by
        norm_num [heuristic, sM, gM]
      omega

/-! ## Invariant preservation for the `a_star` loop -/

theorem mfind_of_mem_keys {α : Type} {m : List (Cell × α)} {k : Cell}
    (h : k ∈ m.map Prod.fst) : ∃ v, mfind m k = some v := by
  induction m with
  | nil => simp at h
  | cons kv m ih =>
      obtain ⟨k2, v2⟩ := kv
      rw [mfind]
      split
      · exact ⟨v2, rfl⟩
      · rename_i hne
        simp only [List.map_cons, List.mem_cons] at h
        rcases h with h | h
        · exact absurd h hne
        · exact ih h

theorem mem_appUniv (w h : Int) (s : Cell) {c : Cell}
    (hc : c = s ∨ inBoundsA w h c = true) : c ∈ appUniv w h s := by
  rcases hc with rfl | hb
  · simp [appUniv]
  · simp only [inBoundsA, Bool.and_eq_true, decide_eq_true_eq] at hb
    obtain ⟨⟨⟨hb1, hb2⟩, hb3⟩, hb4⟩ := hb
    simp only [appUniv, Finset.mem_insert]
    right
    simp only [Finset.mem_image, Finset.mem_product, Finset.mem_range]
    refine ⟨(c.1.toNat, c.2.toNat), ⟨by omega, by omega⟩, ?_⟩
    have h1 : (c.1.toNat : Int) = c.1 := Int.toNat_of_nonneg hb1
    have h2 : (c.2.toNat : Int) = c.2 := Int.toNat_of_nonneg hb3
    simp only
    rw [h1, h2]

theorem appUniv_card (w h : Int) (s : Cell) :
    (appUniv w h s).card ≤ w.toNat * h.toNat + 1 := by
  unfold appUniv
  apply le_trans (Finset.card_insert_le _ _)
  have h1 := Finset.card_image_le
    (s := Finset.range w.toNat ×ˢ Finset.range h.toNat)
    (f := fun rc : Nat × Nat => ((rc.1 : Int), (rc.2 : Int)))
  rw [Finset.card_product, Finset.card_range, Finset.card_range] at h1
  omega

/-- The `g` dictionary of `a_star` never holds more than one entry per cell
of the grid universe, bounding its size. -/
theorem appCore_glen {w h : Int} {obstacles : List Cell} {s goal : Cell}
    {op : List Cell} {came : List (Cell × Cell)} {g f : List (Cell × Nat)}
    (hcore : AppCore w h obstacles s goal op came g f) :
    g.length ≤ w.toNat * h.toNat + 1 := by
  have hsub : (g.map Prod.fst).toFinset ⊆ appUniv w h s := by
    intro k hk
    rw [List.mem_toFinset] at hk
    obtain ⟨v, hv⟩ := mfind_of_mem_keys hk
    exact mem_appUniv w h s (hcore.domU k v hv)
  have hcard := Finset.card_le_card hsub
  rw [List.toFinset_card_of_nodup hcore.gkeys] at hcard
  have := appUniv_card w h s
  simpa using le_trans hcard this

theorem stepA_of_dir {w h : Int} {obstacles : List Cell} {a : Cell} {d : Cell}
    (hd : d ∈ dirs) (hb : inBoundsA w h (addC a d) = true)
    (hobs : addC a d ∉ obstacles) : stepA w h obstacles a (addC a d) :=
  ⟨⟨d, hd, rfl⟩, hb, hobs⟩

/-- One accepted relaxation of `a_star` (lines 169-174) preserves the core
invariant, monotonically improves `g`, leaves the popped cell untouched,
keeps closed cells other than the popped one relaxed, and does not increase
the termination measure. -/
theorem relax_stepA (w h : Int) (obstacles : List Cell) (s goal current : Cell)
    (gcur : Nat) (d : Cell) (hd : d ∈ dirs)
    (op : List Cell) (came : List (Cell × Cell)) (g f : List (Cell × Nat))
    (hcore : AppCore w h obstacles s goal op came g f)
    (hcur : mfind g current = some gcur)
    (hb : inBoundsA w h (addC current d) = true)
    (hobs : addC current d ∉ obstacles)
    (hacc : (mfind g (addC current d)).all
      (fun v => decide (gcur + 1 < v)) = true)
    (hclosed : ∀ n gv, mfind g n = some gv → n ∉ op → n ≠ current →
      ∀ d2 ∈ dirs, inBoundsA w h (addC n d2) = true → addC n d2 ∉ obstacles →
      ∃ gu, mfind g (addC n d2) = some gu ∧ gu ≤ gv + 1) :
    AppCore w h obstacles s goal (addIfAbsent op (addC current d))
      (msetU came (addC current d) current)
      (msetU g (addC current d) (gcur + 1))
      (msetU f (addC current d) (gcur + 1 + heuristic (addC current d) goal)) ∧
    mfind (msetU g (addC current d) (gcur + 1)) current = some gcur ∧
    (∀ x v, mfind g x = some v →
      ∃ v2, mfind (msetU g (addC current d) (gcur + 1)) x = some v2 ∧ v2 ≤ v) ∧
    (∀ n gv, mfind (msetU g (addC current d) (gcur + 1)) n = some gv →
      n ∉ addIfAbsent op (addC current d) → n ≠ current →
      ∀ d2 ∈ dirs, inBoundsA w h (addC n d2) = true → addC n d2 ∉ obstacles →
      ∃ gu, mfind (msetU g (addC current d) (gcur + 1)) (addC n d2) = some gu ∧
        gu ≤ gv + 1) ∧
    appMeasure w h (addIfAbsent op (addC current d))
      (msetU g (addC current d) (gcur + 1)) ≤ appMeasure w h op g := by
  set nb := addC current d with hnb
  have hnbcur : nb ≠ current := addC_ne_self hd
  have hnbop : nb ∈ addIfAbsent op nb := mem_addIfAbsent.2 (Or.inr rfl)
  obtain ⟨p0, hp0, hlen0⟩ := hcore.gpath current gcur hcur
  have hpnb : ValidPathA w h obstacles s nb (p0 ++ [nb]) :=
    validR_append_step hp0 (stepA_of_dir hd hb hobs)
  have hnbs : nb ≠ s := by
    intro h1
    rw [h1, hcore.gs] at hacc
    simp at hacc
  have hnb_new : mfind (msetU g nb (gcur + 1)) nb = some (gcur + 1) :=
    mfind_msetU_self g nb (gcur + 1)
  have holdg : ∀ x, x ≠ nb → mfind (msetU g nb (gcur + 1)) x = mfind g x :=
    fun x hx => mfind_msetU_ne g (gcur + 1) hx
  have holdf : ∀ x, x ≠ nb →
      mfind (msetU f nb (gcur + 1 + heuristic nb goal)) x = mfind f x :=
    fun x hx => mfind_msetU_ne f (gcur + 1 + heuristic nb goal) hx
  have hacc2 : ∀ v, mfind g nb = some v → gcur + 1 < v := by
    intro v hv
    rw [hv] at hacc
    simpa using hacc
  have hgmono : ∀ x v, mfind g x = some v →
      ∃ v2, mfind (msetU g nb (gcur + 1)) x = some v2 ∧ v2 ≤ v := by
    intro x v hxv
    by_cases hx : x = nb
    · subst hx
      have := hacc2 v hxv
      exact ⟨gcur + 1, hnb_new, by omega⟩
    · exact ⟨v, by rw [holdg x hx]; exact hxv, le_refl v⟩
  have hglen : ∀ n gv, mfind (msetU g nb (gcur + 1)) n = some gv →
      gv + 1 ≤ (msetU g nb (gcur + 1)).length := by
    rcases he : mfind g nb with _ | v0
    · -- fresh insertion
      have hkeys : nb ∉ g.map Prod.fst := by
        intro hmem
        obtain ⟨v, hv⟩ := mfind_of_mem_keys hmem
        rw [hv] at he
        simp at he
      have hlen : (msetU g nb (gcur + 1)).length = g.length + 1 :=
        msetU_length_of_not_mem _ hkeys
      intro n gv hn
      by_cases hx : n = nb
      · subst hx
        rw [hnb_new] at hn
        obtain rfl : gcur + 1 = gv := by simpa using hn
        have := hcore.gcard current gcur hcur
        omega
      · rw [holdg n hx] at hn
        have := hcore.gcard n gv hn
        omega
    · -- update in place
      have hlen : (msetU g nb (gcur + 1)).length = g.length :=
        msetU_length_of_mem _ (mem_keys_of_mfind he)
      intro n gv hn
      by_cases hx : n = nb
      · subst hx
        rw [hnb_new] at hn
        obtain rfl : gcur + 1 = gv := by simpa using hn
        have h1 := hacc2 v0 he
        have h2 := hcore.gcard nb v0 he
        omega
      · rw [holdg n hx] at hn
        have := hcore.gcard n gv hn
        omega
  have hcore2 : AppCore w h obstacles s goal (addIfAbsent op nb)
      (msetU came nb current) (msetU g nb (gcur + 1))
      (msetU f nb (gcur + 1 + heuristic nb goal)) := by
    refine ⟨nodup_addIfAbsent hcore.opNodup nb, ?_, ?_, ?_, ?_, ?_, ?_, ?_,
      ?_, ?_, hglen, ?_⟩
    · -- opDom
      intro n hn
      rcases mem_addIfAbsent.1 hn with hn2 | rfl
      · obtain ⟨gv, hgv⟩ := hcore.opDom n hn2
        obtain ⟨v2, hv2, _⟩ := hgmono n gv hgv
        exact ⟨v2, hv2⟩
      · exact ⟨gcur + 1, hnb_new⟩
    · -- fsync
      intro n
      by_cases hx : n = nb
      · subst hx
        rw [hnb_new, mfind_msetU_self]
        rfl
      · rw [holdg n hx, holdf n hx]
        exact hcore.fsync n
    · -- gpath
      intro n gv hn
      by_cases hx : n = nb
      · subst hx
        rw [hnb_new] at hn
        obtain rfl : gcur + 1 = gv := by simpa using hn
        refine ⟨p0 ++ [nb], hpnb, ?_⟩
        simp only [List.length_append, List.length_cons, List.length_nil]
        omega
      · rw [holdg n hx] at hn
        exact hcore.gpath n gv hn
    · -- gs
      rw [holdg s (fun h1 => hnbs h1.symm)]
      exact hcore.gs
    · -- came_step
      intro n m hn
      by_cases hx : n = nb
      · subst hx
        rw [mfind_msetU_self] at hn
        obtain rfl : current = m := by simpa using hn
        exact stepA_of_dir hd hb hobs
      · rw [mfind_msetU_ne came current hx] at hn
        exact hcore.came_step n m hn
    · -- came_g
      intro n m hn
      by_cases hx : n = nb
      · subst hx
        rw [mfind_msetU_self] at hn
        obtain rfl : current = m := by simpa using hn
        exact ⟨gcur + 1, gcur, hnb_new,
          by rw [holdg current (Ne.symm hnbcur)]; exact hcur, by omega⟩
      · rw [mfind_msetU_ne came current hx] at hn
        obtain ⟨gn, gm, hgn, hgm, hlt⟩ := hcore.came_g n m hn
        obtain ⟨gm2, hgm2, hgm2le⟩ := hgmono m gm hgm
        exact ⟨gn, gm2, by rw [holdg n hx]; exact hgn, hgm2, by omega⟩
    · -- came_dom
      intro n gv hn
      by_cases hx : n = nb
      · subst hx
        exact Or.inr ⟨current, mfind_msetU_self came nb current⟩
      · rw [holdg n hx] at hn
        rcases hcore.came_dom n gv hn with h1 | ⟨m, hm⟩
        · exact Or.inl h1
        · exact Or.inr ⟨m, by rw [mfind_msetU_ne came current hx]; exact hm⟩
    · -- ng
      intro gv hn
      by_cases hx : goal = nb
      · rw [hx]
        exact hnbop
      · rw [holdg goal hx] at hn
        exact subset_addIfAbsent op nb goal (hcore.ng gv hn)
    · -- domU
      intro n gv hn
      by_cases hx : n = nb
      · subst hx
        exact Or.inr hb
      · rw [holdg n hx] at hn
        exact hcore.domU n gv hn
    · -- gkeys
      rcases he : mfind g nb with _ | v0
      · have hkeys : nb ∉ g.map Prod.fst := by
          intro hmem
          obtain ⟨v, hv⟩ := mfind_of_mem_keys hmem
          rw [hv] at he
          simp at he
        rw [msetU_keys_of_not_mem _ hkeys]
        rw [List.nodup_append]
        refine ⟨hcore.gkeys, List.nodup_singleton nb, ?_⟩
        intro a ha hb2
        rw [List.mem_singleton] at hb2
        subst hb2
        exact hkeys ha
      · rw [msetU_keys_of_mem _ (mem_keys_of_mfind he)]
        exact hcore.gkeys
  refine ⟨hcore2, by rw [holdg current (Ne.symm hnbcur)]; exact hcur, hgmono,
    ?_, ?_⟩
  · -- closed cells stay relaxed
    intro n gv hn hnop hncur d2 hd2 hb2 hobs2
    have hnnb : n ≠ nb := fun h1 => hnop (h1 ▸ hnbop)
    rw [holdg n hnnb] at hn
    have hnop2 : n ∉ op := fun h1 => hnop (subset_addIfAbsent op nb n h1)
    obtain ⟨gu, hgu, hgule⟩ := hclosed n gv hn hnop2 hncur d2 hd2 hb2 hobs2
    obtain ⟨gu2, hgu2, hgu2le⟩ := hgmono _ gu hgu
    exact ⟨gu2, hgu2, by omega⟩
  · -- the measure does not increase
    have hoplen : (addIfAbsent op nb).length ≤ op.length + 1 :=
      length_addIfAbsent op nb
    have hglen2 := appCore_glen hcore2
    rcases he : mfind g nb with _ | v0
    · have hkeys : nb ∉ g.map Prod.fst := by
        intro hmem
        obtain ⟨v, hv⟩ := mfind_of_mem_keys hmem
        rw [hv] at he
        simp at he
      have hlen : (msetU g nb (gcur + 1)).length = g.length + 1 :=
        msetU_length_of_not_mem _ hkeys
      have hsum : gSum (msetU g nb (gcur + 1)) = gSum g + (gcur + 1) :=
        gSum_msetU_of_not_mem _ hkeys
      have hgcur2 : gcur + 1 + 1 ≤ (msetU g nb (gcur + 1)).length :=
        hglen (addC current d) (gcur + 1) hnb_new
      unfold appMeasure
      rw [hlen, hsum]
      have hsub : w.toNat * h.toNat + 1 - g.length =
          (w.toNat * h.toNat + 1 - (g.length + 1)) + 1 := by
        rw [hlen] at hglen2
        omega
      rw [hsub, Nat.mul_succ]
      rw [hlen] at hgcur2
      omega
    · have hlen : (msetU g nb (gcur + 1)).length = g.length :=
        msetU_length_of_mem _ (mem_keys_of_mfind he)
      have hsum : gSum (msetU g nb (gcur + 1)) + v0 = gSum g + (gcur + 1) :=
        gSum_msetU_of_mfind _ he
      have hv0 := hacc2 v0 he
      unfold appMeasure
      rw [hlen]
      omega

/-- The relaxation loop of `a_star` (lines 166-174): after expanding
`current` over `ds`, the core invariant holds, `g`-values only decrease,
`g[current]` is untouched, closed cells other than `current` stay relaxed,
every direction of `ds` is fully relaxed, and the termination measure does
not increase. -/
theorem expandA_spec (w h : Int) (obstacles : List Cell) (s goal current : Cell)
    (gcur : Nat) :
    ∀ (ds : List Cell) (op : List Cell) (came : List (Cell × Cell))
      (g f : List (Cell × Nat)),
      (∀ d ∈ ds, d ∈ dirs) →
      AppCore w h obstacles s goal op came g f →
      mfind g current = some gcur →
      (∀ n gv, mfind g n = some gv → n ∉ op → n ≠ current →
        ∀ d2 ∈ dirs, inBoundsA w h (addC n d2) = true → addC n d2 ∉ obstacles →
        ∃ gu, mfind g (addC n d2) = some gu ∧ gu ≤ gv + 1) →
      AppCore w h obstacles s goal
        (expandA w h obstacles goal current gcur ds (op, came, g, f)).1
        (expandA w h obstacles goal current gcur ds (op, came, g, f)).2.1
        (expandA w h obstacles goal current gcur ds (op, came, g, f)).2.2.1
        (expandA w h obstacles goal current gcur ds (op, came, g, f)).2.2.2 ∧
      (∀ x v, mfind g x = some v →
        ∃ v2, mfind (expandA w h obstacles goal current gcur ds
          (op, came, g, f)).2.2.1 x = some v2 ∧ v2 ≤ v) ∧
      mfind (expandA w h obstacles goal current gcur ds
        (op, came, g, f)).2.2.1 current = some gcur ∧
      (∀ n gv, mfind (expandA w h obstacles goal current gcur ds
          (op, came, g, f)).2.2.1 n = some gv →
        n ∉ (expandA w h obstacles goal current gcur ds (op, came, g, f)).1 →
        n ≠ current →
        ∀ d2 ∈ dirs, inBoundsA w h (addC n d2) = true → addC n d2 ∉ obstacles →
        ∃ gu, mfind (expandA w h obstacles goal current gcur ds
          (op, came, g, f)).2.2.1 (addC n d2) = some gu ∧ gu ≤ gv + 1) ∧
      (∀ d ∈ ds, inBoundsA w h (addC current d) = true →
        addC current d ∉ obstacles →
        ∃ gu, mfind (expandA w h obstacles goal current gcur ds
          (op, came, g, f)).2.2.1 (addC current d) = some gu ∧ gu ≤ gcur + 1) ∧
      appMeasure w h (expandA w h obstacles goal current gcur ds
          (op, came, g, f)).1
        (expandA w h obstacles goal current gcur ds (op, came, g, f)).2.2.1 ≤
        appMeasure w h op g := by
  intro ds
  induction ds with
  | nil =>
      intro op came g f _ hcore hcur hclosed
      simp only [expandA]
      exact ⟨hcore, fun x v hxv => ⟨v, hxv, le_refl v⟩, hcur, hclosed,
        fun d hd => absurd hd (List.not_mem_nil d), le_refl _⟩
  | cons d ds ih =>
      intro op came g f hsub hcore hcur hclosed
      have hd : d ∈ dirs := hsub d (List.mem_cons_self _ _)
      have hsub2 : ∀ d2 ∈ ds, d2 ∈ dirs :=
        fun d2 h2 => hsub d2 (List.mem_cons_of_mem _ h2)
      simp only [expandA]
      by_cases hb : inBoundsA w h (addC current d) = true
      · rw [if_pos hb]
        by_cases hobs : addC current d ∈ obstacles
        · rw [if_pos hobs]
          obtain ⟨C1, C2, C3, C4, C5, C6⟩ := ih op came g f hsub2 hcore hcur hclosed
          refine ⟨C1, C2, C3, C4, ?_, C6⟩
          intro d2 hd2 hb2 hobs2
          rcases List.mem_cons.1 hd2 with rfl | hd3
          · exact absurd hobs hobs2
          · exact C5 d2 hd3 hb2 hobs2
        · rw [if_neg hobs]
          by_cases hacc : (mfind g (addC current d)).all
              (fun v => decide (gcur + 1 < v)) = true
          · rw [if_pos hacc]
            obtain ⟨hcore2, hcur2, hmono2, hclosed2, hmeas2⟩ :=
              relax_stepA w h obstacles s goal current gcur d hd op came g f
                hcore hcur hb hobs hacc hclosed
            obtain ⟨C1, C2, C3, C4, C5, C6⟩ := ih _ _ _ _ hsub2 hcore2 hcur2 hclosed2
            refine ⟨C1, ?_, C3, C4, ?_, ?_⟩
            · intro x v hxv
              obtain ⟨v2, h2, hle2⟩ := hmono2 x v hxv
              obtain ⟨v3, h3, hle3⟩ := C2 x v2 h2
              exact ⟨v3, h3, by omega⟩
            · intro d2 hd2 hb2 hobs2
              rcases List.mem_cons.1 hd2 with rfl | hd3
              · obtain ⟨v3, h3, hle3⟩ :=
                  C2 (addC current d2) (gcur + 1) (mfind_msetU_self g _ _)
                exact ⟨v3, h3, hle3⟩
              · exact C5 d2 hd3 hb2 hobs2
            · exact le_trans C6 hmeas2
          · rw [if_neg hacc]
            obtain ⟨C1, C2, C3, C4, C5, C6⟩ := ih op came g f hsub2 hcore hcur hclosed
            refine ⟨C1, C2, C3, C4, ?_, C6⟩
            intro d2 hd2 hb2 hobs2
            rcases List.mem_cons.1 hd2 with rfl | hd3
            · rcases he : mfind g (addC current d2) with _ | v
              · rw [he] at hacc
                simp at hacc
              · rw [he] at hacc
                simp only [Option.all_some, decide_eq_true_eq] at hacc
                have hv : v ≤ gcur + 1 := by omega
                obtain ⟨v2, h2, hle2⟩ := C2 (addC current d2) v he
                exact ⟨v2, h2, by omega⟩
            · exact C5 d2 hd3 hb2 hobs2
      · rw [if_neg hb]
        obtain ⟨C1, C2, C3, C4, C5, C6⟩ := ih op came g f hsub2 hcore hcur hclosed
        refine ⟨C1, C2, C3, C4, ?_, C6⟩
        intro d2 hd2 hb2 hobs2
        rcases List.mem_cons.1 hd2 with rfl | hd3
        · exact absurd hb2 hb
        · exact C5 d2 hd3 hb2 hobs2

/-- The frontier-witness lemma for `a_star`: walking a valid path, either
the endpoint already has a `g`-value bounded by the path length, or some
open cell on the path has an `f`-value bounded by the path length plus the
endpoint heuristic (Manhattan is admissible). -/
theorem app_witness (w h : Int) (obstacles : List Cell) (s goal : Cell)
    (op : List Cell) (came : List (Cell × Cell)) (g f : List (Cell × Nat))
    (hinv : AppInv w h obstacles s goal op came g f) :
    ∀ (p : List Cell) (y z : Cell) (jy gy : Nat),
      (y :: p).getLast? = some z → List.Chain' (stepA w h obstacles) (y :: p) →
      mfind g y = some gy → gy ≤ jy →
      (∃ gz, mfind g z = some gz ∧ gz ≤ jy + p.length) ∨
      (∃ n gv, n ∈ op ∧ mfind g n = some gv ∧
        gv + heuristic n goal ≤ jy + p.length + heuristic z goal) := by
  intro p
  induction p with
  | nil =>
      intro y z jy gy hlast _ hgy hjy
      obtain rfl : y = z := by simpa using hlast
      exact Or.inl ⟨gy, hgy, by simpa using hjy⟩
  | cons y2 rest ih =>
      intro y z jy gy hlast hch hgy hjy
      have hchfull := hch
      have hlastfull := hlast
      rw [List.getLast?_cons_cons] at hlast
      rw [List.chain'_cons] at hch
      by_cases hy : y ∈ op
      · right
        refine ⟨y, gy, hy, hgy, ?_⟩
        have htri := heuristic_triangle y z goal
        have hyz : heuristic y z ≤ (y2 :: rest).length :=
          chain_manhattan (R := stepA w h obstacles) (fun a b hab => hab.1)
            (y2 :: rest) y z hchfull hlastfull
        simp only [List.length_cons] at hyz ⊢
        omega
      · obtain ⟨⟨d, hd, rfl⟩, hb, hobs⟩ := hch.1
        obtain ⟨gu, hgu, hle⟩ :=
          hinv.closedRelax y gy hgy hy d hd hb hobs
        rcases ih (addC y d) z (jy + 1) gu hlast hch.2 hgu (by omega) with
          ⟨gz, hgz, hb2⟩ | ⟨n, gv, hn, hgv, hb2⟩
        · exact Or.inl ⟨gz, hgz, by simp only [List.length_cons]; omega⟩
        · refine Or.inr ⟨n, gv, hn, hgv, ?_⟩
          simp only [List.length_cons] at hb2 ⊢
          omega

/-- The main induction over the `a_star` loop: under the invariant, (1) any
returned nonempty path is a valid shortest path, (2) the measure-based fuel
suffices, (3) the open set cannot be exhausted while the goal is
reachable. -/
theorem aStarLoop_main (w h : Int) (obstacles : List Cell) (s goal : Cell) :
    ∀ (fuel : Nat) (op : List Cell) (came : List (Cell × Cell))
      (g f : List (Cell × Nat)),
      AppInv w h obstacles s goal op came g f →
      (∀ res, aStarLoop w h obstacles goal fuel op came g f = some res →
        res ≠ [] →
        ValidPathA w h obstacles s goal res ∧
        ∀ P l, ValidPathA w h obstacles s goal P → P.length = l + 1 →
          res.length ≤ l + 1) ∧
      (appMeasure w h op g + 1 ≤ fuel →
        aStarLoop w h obstacles goal fuel op came g f ≠ none) ∧
      ((∃ P, ValidPathA w h obstacles s goal P) →
        aStarLoop w h obstacles goal fuel op came g f ≠ some []) := by
  intro fuel
  induction fuel with
  | zero =>
      intro op came g f _
      refine ⟨?_, ?_, ?_⟩
      · intro res hr
        rw [aStarLoop] at hr
        exact absurd hr (by simp)
      · intro hle
        omega
      · intro _ hr
        rw [aStarLoop] at hr
        exact absurd hr (by simp)
  | succ fuel ih =>
      intro op came g f hinv
      rcases hmin : minByF f op with _ | current
      · have hres : aStarLoop w h obstacles goal (fuel + 1) op came g f =
            some [] := by
          simp only [aStarLoop, hmin]
        refine ⟨?_, ?_, ?_⟩
        · intro res hr hne
          rw [hres] at hr
          obtain rfl : ([] : List Cell) = res := by simpa using hr
          exact absurd rfl hne
        · intro _
          rw [hres]
          simp
        · rintro ⟨P, hP⟩ _
          obtain ⟨hh, hl2, hc⟩ := hP
          cases P with
          | nil => simp at hh
          | cons y rest =>
              have hys : y = s := by simpa using hh
              subst hys
              rcases app_witness w h obstacles y goal op came g f hinv rest y
                goal 0 0 hl2 hc hinv.core.gs (le_refl 0) with
                ⟨gz, hgz, _⟩ | ⟨n, gv, hn, _, _⟩
              · have hmem := hinv.core.ng gz hgz
                rw [minByF_none hmin] at hmem
                exact absurd hmem (List.not_mem_nil goal)
              · rw [minByF_none hmin] at hn
                exact absurd hn (List.not_mem_nil n)
      · have hcur_op : current ∈ op := minByF_mem hmin
        obtain ⟨gcur, hgcur⟩ := hinv.core.opDom current hcur_op
        by_cases hgoal : current = goal
        · subst hgoal
          have hres : aStarLoop w h obstacles current (fuel + 1) op came g f =
              some (reconstructN g.length came current []) := by
            simp only [aStarLoop, hmin]
            rw [if_pos trivial]
          obtain ⟨hvalid, hlen⟩ := reconstruct_valid
            (R := stepA w h obstacles) s came g hinv.core.came_step
            hinv.core.came_g hinv.core.came_dom hinv.core.gs gcur current hgcur
            g.length (hinv.core.gcard current gcur hgcur)
          refine ⟨?_, ?_, ?_⟩
          · intro res hr _
            rw [hres] at hr
            obtain rfl : reconstructN g.length came current [] = res := by
              simpa using hr
            refine ⟨hvalid, ?_⟩
            intro P l hP hPl
            have hopt : gcur ≤ l := by
              obtain ⟨hh, hl2, hc⟩ := hP
              cases P with
              | nil => simp at hh
              | cons y rest =>
                  have hys : y = s := by simpa using hh
                  subst hys
                  simp only [List.length_cons] at hPl
                  rcases app_witness w h obstacles y current op came g f hinv
                    rest y current 0 0 hl2 hc hinv.core.gs (le_refl 0) with
                    ⟨gz, hgz, hb2⟩ | ⟨n, gv, hn, hgv, hb2⟩
                  · rw [hgcur] at hgz
                    obtain rfl : gcur = gz := by simpa using hgz
                    omega
                  · have hminn := minByF_min hmin n hn
                    have hfn : mfind f n = some (gv + heuristic n current) := by
                      rw [hinv.core.fsync n, hgv]
                      rfl
                    have hfc : mfind f current =
                        some (gcur + heuristic current current) := by
                      rw [hinv.core.fsync current, hgcur]
                      rfl
                    rw [heuristic_self] at hfc
                    rw [hfn, hfc] at hminn
                    simp only [fkeyLT, decide_eq_false_iff_not, Nat.not_lt] at hminn
                    rw [heuristic_self] at hb2
                    omega
            omega
          · intro _
            rw [hres]
            simp
          · intro _
            rw [hres]
            intro hcontra
            have : reconstructN g.length came current [] = [] := by
              simpa using hcontra
            have hh := hvalid.1
            rw [this] at hh
            simp at hh
        · have hgetD : (mfind g current).getD 0 = gcur := by rw [hgcur]; rfl
          have hres : aStarLoop w h obstacles goal (fuel + 1) op came g f =
              aStarLoop w h obstacles goal fuel
                (expandA w h obstacles goal current gcur dirs
                  (op.erase current, came, g, f)).1
                (expandA w h obstacles goal current gcur dirs
                  (op.erase current, came, g, f)).2.1
                (expandA w h obstacles goal current gcur dirs
                  (op.erase current, came, g, f)).2.2.1
                (expandA w h obstacles goal current gcur dirs
                  (op.erase current, came, g, f)).2.2.2 := by
            simp only [aStarLoop, hmin]
            rw [if_neg hgoal, hgetD]
          have hgne : goal ≠ current := fun h1 => hgoal h1.symm
          have hcoreE : AppCore w h obstacles s goal (op.erase current) came g f := by
            refine ⟨hinv.core.opNodup.erase current, ?_, hinv.core.fsync,
              hinv.core.gpath, hinv.core.gs, hinv.core.came_step,
              hinv.core.came_g, hinv.core.came_dom, ?_, hinv.core.domU,
              hinv.core.gcard, hinv.core.gkeys⟩
            · intro n hn
              exact hinv.core.opDom n (List.mem_of_mem_erase hn)
            · intro gv hn
              exact (List.mem_erase_of_ne hgne).2 (hinv.core.ng gv hn)
          have hclosedE : ∀ n gv, mfind g n = some gv →
              n ∉ op.erase current → n ≠ current →
              ∀ d2 ∈ dirs, inBoundsA w h (addC n d2) = true →
              addC n d2 ∉ obstacles →
              ∃ gu, mfind g (addC n d2) = some gu ∧ gu ≤ gv + 1 := by
            intro n gv hn hnop hncur
            have hnop2 : n ∉ op := fun h1 =>
              hnop ((List.mem_erase_of_ne hncur).2 h1)
            exact hinv.closedRelax n gv hn hnop2
          obtain ⟨C1, C2, C3, C4, C5, C6⟩ :=
            expandA_spec w h obstacles s goal current gcur dirs
              (op.erase current) came g f (fun d hd => hd) hcoreE hgcur hclosedE
          have hinv2 : AppInv w h obstacles s goal
              (expandA w h obstacles goal current gcur dirs
                (op.erase current, came, g, f)).1
              (expandA w h obstacles goal current gcur dirs
                (op.erase current, came, g, f)).2.1
              (expandA w h obstacles goal current gcur dirs
                (op.erase current, came, g, f)).2.2.1
              (expandA w h obstacles goal current gcur dirs
                (op.erase current, came, g, f)).2.2.2 := by
            refine ⟨C1, ?_⟩
            intro n gv hn hnop d2 hd2 hb2 hobs2
            by_cases hncur : n = current
            · subst hncur
              rw [C3] at hn
              obtain rfl : gcur = gv := by simpa using hn
              exact C5 d2 hd2 hb2 hobs2
            · exact C4 n gv hn hnop hncur d2 hd2 hb2 hobs2
          obtain ⟨D1, D2, D3⟩ := ih _ _ _ _ hinv2
          have hmeas : appMeasure w h (op.erase current) g + 1 =
              appMeasure w h op g := by
            unfold appMeasure
            have h1 : (op.erase current).length = op.length - 1 :=
              List.length_erase_of_mem hcur_op
            have h2 : 1 ≤ op.length := List.length_pos.2 (by
              rintro rfl
              exact absurd hcur_op (List.not_mem_nil current))
            omega
          refine ⟨?_, ?_, ?_⟩
          · intro res hr hne
            rw [hres] at hr
            exact D1 res hr hne
          · intro hfe hr
            rw [hres] at hr
            apply D2 ?_ hr
            have := le_trans C6 (le_refl _)
            omega
          · intro hex hr
            rw [hres] at hr
            exact D3 hex hr

/-- The initial `a_star` state (lines 151-154) satisfies the loop
invariant. -/
theorem appInv_init (w h : Int) (obstacles : List Cell) (s goal : Cell) :
    AppInv w h obstacles s goal [s] [] [(s, 0)] [(s, heuristic s goal)] := by
  have hfind : ∀ n gv, mfind [(s, (0 : Nat))] n = some gv → n = s ∧ gv = 0 := by
    intro n gv hn
    rw [mfind_singleton] at hn
    split at hn
    · rename_i h1
      exact ⟨h1, by simpa using hn.symm⟩
    · simp at hn
  refine ⟨⟨List.nodup_singleton s, ?_, ?_, ?_, ?_, ?_, ?_, ?_, ?_, ?_, ?_, ?_⟩, ?_⟩
  · intro n hn
    obtain rfl : n = s := by simpa using hn
    exact ⟨0, by rw [mfind_singleton]; simp⟩
  · intro n
    rw [mfind_singleton, mfind_singleton]
    split
    · rename_i h1
      subst h1
      simp
    · simp
  · intro n gv hn
    obtain ⟨rfl, rfl⟩ := hfind n gv hn
    exact ⟨[n], validR_singleton n, by simp⟩
  · rw [mfind_singleton]
    simp
  · intro n m hn
    rw [mfind] at hn
    exact absurd hn (by simp)
  · intro n m hn
    rw [mfind] at hn
    exact absurd hn (by simp)
  · intro n gv hn
    exact Or.inl (hfind n gv hn).1
  · intro gv hn
    obtain ⟨rfl, _⟩ := hfind goal gv hn
    simp
  · intro n gv hn
    exact Or.inl (hfind n gv hn).1
  · intro n gv hn
    obtain ⟨rfl, rfl⟩ := hfind n gv hn
    simp
  · simp
  · intro n gv hn hnop _ _ _ _
    obtain ⟨rfl, _⟩ := hfind n gv hn
    exact absurd (List.mem_singleton.2 rfl) hnop

/-- Soundness and optimality of `a_star`: a nonempty returned path is a
valid path from start to goal no longer than any valid path. -/
theorem a_star_sound (start goal : Cell) (w h : Int) (obstacles : List Cell)
    (hne : a_star start goal w h obstacles ≠ []) :
    ValidPathA w h obstacles start goal (a_star start goal w h obstacles) ∧
    ∀ P l, ValidPathA w h obstacles start goal P → P.length = l + 1 →
      (a_star start goal w h obstacles).length ≤ l + 1 := by
  obtain ⟨A1, _, _⟩ := aStarLoop_main w h obstacles start goal (aStarFuel w h)
    [start] [] [(start, 0)] [(start, heuristic start goal)]
    (appInv_init w h obstacles start goal)
  unfold a_star aStarRun at hne ⊢
  rcases he : aStarLoop w h obstacles goal (aStarFuel w h) [start] []
      [(start, 0)] [(start, heuristic start goal)] with _ | res
  · rw [he] at hne
    simp at hne
  · rw [he] at hne
    simp only [Option.getD_some] at hne ⊢
    exact A1 res he hne

/-- Completeness of `a_star`: if the goal is reachable, the returned path is
nonempty. -/
theorem a_star_complete (start goal : Cell) (w h : Int) (obstacles : List Cell)
    (P : List Cell) (hP : ValidPathA w h obstacles start goal P) :
    a_star start goal w h obstacles ≠ [] := by
  obtain ⟨_, A2, A3⟩ := aStarLoop_main w h obstacles start goal (aStarFuel w h)
    [start] [] [(start, 0)] [(start, heuristic start goal)]
    (appInv_init w h obstacles start goal)
  have hfuel : appMeasure w h [start] [(start, 0)] + 1 ≤ aStarFuel w h := by
    unfold appMeasure aStarFuel gSum
    simp only [List.length_singleton, List.map_cons, List.map_nil,
      List.sum_cons, List.sum_nil]
    rw [show w.toNat * h.toNat + 1 - 1 = w.toNat * h.toNat from by omega]
    rw [show w.toNat * h.toNat + 1 = (w.toNat * h.toNat) + 1 from rfl,
      Nat.mul_succ]
    omega
  have hne := A2 hfuel
  have hne2 := A3 ⟨P, hP⟩
  unfold a_star aStarRun
  rcases he : aStarLoop w h obstacles goal (aStarFuel w h) [start] []
      [(start, 0)] [(start, heuristic start goal)] with _ | res
  · exact absurd he hne
  · intro hcon
    apply hne2
    rw [he]
    simp only [Option.getD_some] at hcon
    rw [hcon]

/-- On an obstacle-free `a_star` grid, the returned path has exactly
`manhattan + 1` cells (no threshold: `a_star` uses a true infinity). -/
theorem a_star_free_grid (w h : Int) {s t : Cell}
    (hs : inBoundsA w h s = true) (ht : inBoundsA w h t = true) :
    (a_star s t w h []).length = heuristic s t + 1 := by
  obtain ⟨P, hP, hPlen⟩ := exists_free_path_app w h hs ht
  have hne := a_star_complete s t w h [] P hP
  obtain ⟨hvalid, hopt⟩ := a_star_sound s t w h [] hne
  have hge := validR_length (R := stepA w h []) (fun a b hab => hab.1) hvalid
  have hle := hopt P (heuristic s t) hP hPlen
  omega

/-! ## Correspondence between the two grid encodings -/

/-- The bounds checks of the two implementations coincide under the
identification `w = rows`, `h = cols`. -/
theorem inB_eq_inBoundsA (grid : Grid) (p : Cell) :
    inB grid p = inBoundsA (rowsOf grid) (colsOf grid) p := rfl

theorem mem_allCells (grid : Grid) (c : Cell) :
    c ∈ allCells grid ↔ inB grid c = true := by
  unfold allCells
  rw [List.mem_flatMap]
  constructor
  · rintro ⟨r, hr, hc⟩
    rw [List.mem_range] at hr
    rw [List.mem_map] at hc
    obtain ⟨cc, hcc, rfl⟩ := hc
    rw [List.mem_range] at hcc
    simp only [inB, Bool.and_eq_true, decide_eq_true_eq]
    refine ⟨⟨⟨?_, ?_⟩, ?_⟩, ?_⟩ <;> omega
  · intro hb
    obtain ⟨x, y⟩ := c
    simp only [inB, Bool.and_eq_true, decide_eq_true_eq] at hb
    refine ⟨x.toNat, ?_, ?_⟩
    · rw [List.mem_range]
      omega
    · rw [List.mem_map]
      refine ⟨y.toNat, ?_, ?_⟩
      · rw [List.mem_range]
        omega
      · simp only [Prod.mk.injEq]
        omega

theorem mem_wallCells (grid : Grid) (c : Cell) :
    c ∈ wallCells grid ↔ inB grid c = true ∧ cellVal grid c = 1 := by
  unfold wallCells
  rw [List.mem_filter, mem_allCells]
  simp

/-- On a rectangular `0/1` grid, every in-bounds cell holds `0` or `1`. -/
theorem zeroOne_cellVal (grid : Grid) (hrect : RectGrid grid)
    (h01 : ZeroOne grid) {c : Cell} (hc : inB grid c = true) :
    cellVal grid c = 0 ∨ cellVal grid c = 1 := by
  have hb := hc
  simp only [inB, Bool.and_eq_true, decide_eq_true_eq] at hb
  obtain ⟨⟨⟨hb1, hb2⟩, hb3⟩, hb4⟩ := hb
  have hr : c.1.toNat < grid.length := by
    unfold rowsOf at hb2
    omega
  have hrowmem : grid[c.1.toNat] ∈ grid := List.getElem_mem hr
  have hlen : grid[c.1.toNat].length = colsOf grid := hrect _ hrowmem
  have hcn : c.2.toNat < grid[c.1.toNat].length := by
    rw [hlen]
    omega
  unfold cellVal
  rw [List.getD_eq_getElem grid [] hr, List.getD_eq_getElem _ 1 hcn]
  exact h01 _ hrowmem _ (List.getElem_mem hcn)

/-- On a rectangular `0/1` grid, one `astar` step is exactly one `a_star`
step under the identification `w = rows`, `h = cols`,
`obstacles = wallCells`. -/
theorem stepN_iff_stepA (grid : Grid) (hrect : RectGrid grid)
    (h01 : ZeroOne grid) (a b : Cell) :
    stepN grid a b ↔
      stepA (rowsOf grid) (colsOf grid) (wallCells grid) a b := by
  unfold stepN stepA isFree
  constructor
  · rintro ⟨hadj, hfree⟩
    rw [Bool.and_eq_true] at hfree
    refine ⟨hadj, by rw [← inB_eq_inBoundsA]; exact hfree.1, ?_⟩
    rw [mem_wallCells]
    rintro ⟨_, h1⟩
    have h0 := hfree.2
    rw [h1] at h0
    simp at h0
  · rintro ⟨hadj, hbnd, hnw⟩
    rw [← inB_eq_inBoundsA] at hbnd
    refine ⟨hadj, ?_⟩
    rw [Bool.and_eq_true]
    refine ⟨hbnd, ?_⟩
    rcases zeroOne_cellVal grid hrect h01 hbnd with h0 | h1
    · simp [h0]
    · exact absurd ((mem_wallCells grid b).2 ⟨hbnd, h1⟩) hnw

/-- On a rectangular `0/1` grid, the two implementations admit exactly the
same valid paths. -/
theorem validN_iff_validA (grid : Grid) (hrect : RectGrid grid)
    (h01 : ZeroOne grid) (s t : Cell) (p : List Cell) :
    ValidPathN grid s t p ↔
      ValidPathA (rowsOf grid) (colsOf grid) (wallCells grid) s t p := by
  unfold ValidPathN ValidPathA ValidPathR
  constructor
  · rintro ⟨h1, h2, h3⟩
    exact ⟨h1, h2,
      h3.imp fun a b hab => (stepN_iff_stepA grid hrect h01 a b).1 hab⟩
  · rintro ⟨h1, h2, h3⟩
    exact ⟨h1, h2,
      h3.imp fun a b hab => (stepN_iff_stepA grid hrect h01 a b).2 hab⟩

/-! ## The monster grid -/

theorem rowsOf_monster : rowsOf gridMonster = 1 := by
  unfold rowsOf gridMonster
  rw [List.length_singleton]

theorem colsOf_monster : colsOf gridMonster = 1000000001 := by
  unfold colsOf gridMonster
  rw [List.headD_cons, List.length_replicate]

theorem rectGrid_monster : RectGrid gridMonster := by
  intro row hrow
  unfold gridMonster at hrow
  rw [List.mem_singleton] at hrow
  subst hrow
  rw [List.length_replicate, colsOf_monster]

theorem allFree_monster : AllFree gridMonster := by
  intro row hrow v hv
  unfold gridMonster at hrow
  rw [List.mem_singleton] at hrow
  subst hrow
  exact List.eq_of_mem_replicate hv

theorem zeroOne_of_allFree {grid : Grid} (h : AllFree grid) : ZeroOne grid :=
  fun row hr v hv => Or.inl (h row hr v hv)

theorem inB_monster_s : inB gridMonster sM = true := by
  unfold inB sM
  rw [rowsOf_monster, colsOf_monster]
  decide

theorem inB_monster_g : inB gridMonster gM = true := by
  unfold inB gM
  rw [rowsOf_monster, colsOf_monster]
  decide

theorem heuristic_monster : heuristic sM gM = 1000000000 := by
  norm_num [heuristic, sM, gM]

/-! ## Claim C1: path length on obstacle-free grids -/

/-- C1 counterexample.  The monster grid is obstacle-free and rectangular
and both cells are in bounds, yet `astar` does not return a path of
`manhattan + 1` cells: the goal sits at Manhattan distance `10^9`, the
relaxation guard `tentative < 1e9` (line 71 of `nav_pygame.py`) never
admits it, and `astar` returns `None`. -/
theorem astar_misses_distant_goal :
    RectGrid gridMonster ∧ AllFree gridMonster ∧
    inB gridMonster sM = true ∧ inB gridMonster gM = true ∧
    ¬((astar gridMonster sM gM).map List.length =
        some (heuristic sM gM + 1)) := by
  refine ⟨rectGrid_monster, allFree_monster, inB_monster_s, inB_monster_g, ?_⟩
  rw [astar_monster_none]
  simp

/-- C1 (amended).  On an obstacle-free rectangular grid, `astar` returns a
path of exactly `manhattan(start, goal) + 1` cells whenever that distance is
below the `1e9` relaxation threshold, and `a_star` (whose threshold is a
true `float('inf')`) does so for every pair of in-bounds cells. -/
theorem planners_free_grid_manhattan :
    (∀ (grid : Grid), RectGrid grid → AllFree grid → ∀ s t : Cell,
        inB grid s = true → inB grid t = true →
        heuristic s t < 1000000000 →
        (astar grid s t).map List.length = some (heuristic s t + 1)) ∧
    (∀ (w h : Int) (s t : Cell), inBoundsA w h s = true →
        inBoundsA w h t = true →
        (a_star s t w h []).length = heuristic s t + 1) := by
  constructor
  · intro grid hrect hfree s t hs ht hsmall
    exact astar_free_grid grid hrect hfree hs ht hsmall
  · intro w h s t hs ht
    exact a_star_free_grid w h hs ht

/-- Witness for C1: on the concrete 2-by-3 free grid, both planners return
a path of `manhattan((0,0),(1,2)) + 1 = 4` cells. -/
theorem planners_free_grid_manhattan_witness :
    (astar gridFree (0, 0) (1, 2)).map List.length = some 4 ∧
    (a_star (0, 0) (1, 2) 2 3 []).length = 4 := by
  have h3 : heuristic (0, 0) (1, 2) = 3 := by decide
  constructor
  · have h := planners_free_grid_manhattan.1 gridFree
      (by unfold RectGrid; decide) (by unfold AllFree; decide)
      (0, 0) (1, 2) (by decide) (by decide) (by decide)
    rw [h3] at h
    exact h
  · have h := planners_free_grid_manhattan.2 2 3 (0, 0) (1, 2)
      (by decide) (by decide)
    rw [h3] at h
    exact h

/-! ## Claim C2: validity of returned paths -/

/-- C2.  Whenever `astar` returns a path, it is non-empty, begins at the
start cell, ends at the goal cell, consecutive cells are 4-connected, and
every cell except possibly the start is free in the composite grid supplied
to the planner. -/
theorem astar_path_valid (grid : Grid) (s goal : Cell) (p : List Cell)
    (h : astar grid s goal = some p) :
    p ≠ [] ∧ p.head? = some s ∧ p.getLast? = some goal ∧
    List.Chain' adjC p ∧
    ∀ c ∈ p, c ≠ s → isFree grid c = true := by
  obtain ⟨hvalid, _, _⟩ := astar_sound grid s goal p h
  obtain ⟨hh, hl, hc⟩ := hvalid
  refine ⟨?_, hh, hl, hc.imp fun a b hab => hab.1, ?_⟩
  · rintro rfl
    simp at hh
  · intro c hcm hcs
    rcases validR_cells ⟨hh, hl, hc⟩ c hcm with h1 | ⟨b, hb⟩
    · exact absurd h1 hcs
    · exact hb.2

/-- Witness for C2: on the concrete 3-by-3 grid with a centre wall, the
returned path satisfies every conclusion. -/
theorem astar_path_valid_witness :
    astar gridW1 (0, 0) (2, 2) = some pathW1 ∧
    (pathW1 ≠ [] ∧ pathW1.head? = some (0, 0) ∧
     pathW1.getLast? = some (2, 2) ∧ List.Chain' adjC pathW1 ∧
     ∀ c ∈ pathW1, c ≠ (0, 0) → isFree gridW1 c = true) :=
  ⟨by decide, astar_path_valid gridW1 (0, 0) (2, 2) pathW1 (by decide)⟩

/-! ## Claim C3: unreachable goals yield empty paths -/

theorem validR_last_mem {R : Cell → Cell → Prop} {s t : Cell}
    {p : List Cell} (h : ValidPathR R s t p) : t ∈ p := by
  obtain ⟨_, hl, _⟩ := h
  exact List.mem_of_mem_getLast? hl

/-- C3.  If no valid path joins start to goal, `astar` returns `None` and
`a_star` returns the empty path; both loops terminate by exhausting the
open set (totality is part of `astar_complete`/`a_star_complete`). -/
theorem planners_unreachable_empty :
    (∀ (grid : Grid) (s goal : Cell),
        (¬∃ p, ValidPathN grid s goal p) → astar grid s goal = none) ∧
    (∀ (w h : Int) (obstacles : List Cell) (s goal : Cell),
        (¬∃ p, ValidPathA w h obstacles s goal p) →
        a_star s goal w h obstacles = []) := by
  constructor
  · intro grid s goal hno
    cases he : astar grid s goal with
    | none => rfl
    | some p =>
        obtain ⟨hvalid, _, _⟩ := astar_sound grid s goal p he
        exact absurd ⟨p, hvalid⟩ hno
  · intro w h obstacles s goal hno
    by_cases he : a_star s goal w h obstacles = []
    · exact he
    · obtain ⟨hvalid, _⟩ := a_star_sound s goal w h obstacles he
      exact absurd ⟨_, hvalid⟩ hno

/-- Witness for C3: on the concrete 1-by-2 grid whose second cell is a wall
(resp. an obstacle), the goal `(0,1)` is unreachable and both planners
return empty. -/
theorem planners_unreachable_empty_witness :
    (¬∃ p, ValidPathN gridC3 (0, 0) (0, 1) p) ∧
    (¬∃ p, ValidPathA 1 2 [(0, 1)] (0, 0) (0, 1) p) ∧
    astar gridC3 (0, 0) (0, 1) = none ∧
    a_star (0, 0) (0, 1) 1 2 [(0, 1)] = [] := by
  have hnav : ¬∃ p, ValidPathN gridC3 (0, 0) (0, 1) p := by
    rintro ⟨p, hp⟩
    rcases validR_cells hp _ (validR_last_mem hp) with h1 | ⟨b, hb⟩
    · exact absurd h1 (by decide)
    · exact absurd hb.2 (by decide)
  have happ : ¬∃ p, ValidPathA 1 2 [(0, 1)] (0, 0) (0, 1) p := by
    rintro ⟨p, hp⟩
    rcases validR_cells hp _ (validR_last_mem hp) with h1 | ⟨b, hb⟩
    · exact absurd h1 (by decide)
    · exact hb.2.2 (by decide)
  exact ⟨hnav, happ,
    planners_unreachable_empty.1 gridC3 (0, 0) (0, 1) hnav,
    planners_unreachable_empty.2 1 2 [(0, 1)] (0, 0) (0, 1) happ⟩

/-! ## Claim C10: equivalence of the two A* implementations -/

/-- C10 counterexample.  Under the documented identification (`w = rows`,
`h = cols`, `obstacles = wallCells`), the monster-grid goal is reachable and
`a_star` returns a (non-empty) path, but `astar` returns `None`: the two
implementations are not equivalent, because `g.get(cell, 1e9)` in `astar`
makes cells at distance `>= 1e9` unreachable while `a_star` uses
`float('inf')`. -/
theorem implementations_diverge_on_monster :
    (∃ P, ValidPathN gridMonster sM gM P) ∧
    a_star sM gM (rowsOf gridMonster) (colsOf gridMonster)
      (wallCells gridMonster) ≠ [] ∧
    astar gridMonster sM gM = none := by
  obtain ⟨P, hP, _⟩ := exists_free_path_nav gridMonster rectGrid_monster
    allFree_monster inB_monster_s inB_monster_g
  have hPA := (validN_iff_validA gridMonster rectGrid_monster
    (zeroOne_of_allFree allFree_monster) sM gM P).1 hP
  exact ⟨⟨P, hP⟩, a_star_complete sM gM _ _ _ P hPA, astar_monster_none⟩

/-- C10 (amended).  On rectangular `0/1` grids, whenever a shortest path of
`l` steps exists with `l` below the `1e9` threshold of `astar`, both
implementations (under the identification `w = rows`, `h = cols`,
`obstacles = wallCells`) return paths of exactly `l + 1` cells. -/
theorem implementations_agree (grid : Grid) (hrect : RectGrid grid)
    (h01 : ZeroOne grid) (s goal : Cell) (P : List Cell) (l : Nat)
    (hP : ValidPathN grid s goal P) (hPlen : P.length = l + 1)
    (hmin : ∀ Q, ValidPathN grid s goal Q → P.length ≤ Q.length)
    (hl : l < 1000000000) :
    ∃ p, astar grid s goal = some p ∧ p.length = l + 1 ∧
      (a_star s goal (rowsOf grid) (colsOf grid)
        (wallCells grid)).length = l + 1 := by
  obtain ⟨p, hp⟩ := astar_complete grid s goal P l hP hPlen hl
  obtain ⟨hvalid, _, hopt⟩ := astar_sound grid s goal p hp
  have h1 := hopt P l hP hPlen hl
  have h2 := hmin p hvalid
  have hPA := (validN_iff_validA grid hrect h01 s goal P).1 hP
  have hne := a_star_complete s goal _ _ _ P hPA
  obtain ⟨hv2, hopt2⟩ := a_star_sound s goal _ _ _ hne
  have h3 := hopt2 P l hPA hPlen
  have hv2n := (validN_iff_validA grid hrect h01 s goal _).2 hv2
  have h4 := hmin _ hv2n
  exact ⟨p, hp, by omega, by omega⟩

/-- Witness for C10: on the concrete 3-by-3 grid with a centre wall, the
shortest path has `4` steps and both implementations return `5` cells. -/
theorem implementations_agree_witness :
    RectGrid gridW1 ∧ ZeroOne gridW1 ∧
    ValidPathN gridW1 (0, 0) (2, 2) pathW1 ∧ pathW1.length = 4 + 1 ∧
    (∀ Q, ValidPathN gridW1 (0, 0) (2, 2) Q → pathW1.length ≤ Q.length) ∧
    (∃ p, astar gridW1 (0, 0) (2, 2) = some p ∧ p.length = 4 + 1 ∧
      (a_star (0, 0) (2, 2) (rowsOf gridW1) (colsOf gridW1)
        (wallCells gridW1)).length = 4 + 1) := by
  have hrect : RectGrid gridW1 := by unfold RectGrid; decide
  have h01 : ZeroOne gridW1 := by unfold ZeroOne; decide
  have hstep : ∀ a b d, d ∈ dirs → b = addC a d →
      isFree gridW1 b = true → stepN gridW1 a b :=
    fun _ _ d hd he hf => ⟨⟨d, hd, he⟩, hf⟩
  have hP : ValidPathN gridW1 (0, 0) (2, 2) pathW1 := by
    refine ⟨by decide, by decide, ?_⟩
    simp only [pathW1, List.chain'_cons, List.chain'_singleton, and_true]
    exact ⟨hstep _ _ (0, 1) (by decide) (by decide) (by decide),
      hstep _ _ (0, 1) (by decide) (by decide) (by decide),
      hstep _ _ (1, 0) (by decide) (by decide) (by decide),
      hstep _ _ (1, 0) (by decide) (by decide) (by decide)⟩
  have hmin : ∀ Q, ValidPathN gridW1 (0, 0) (2, 2) Q →
      pathW1.length ≤ Q.length := by
    intro Q hQ
    have hge := validR_length (R := stepN gridW1) (fun a b hab => hab.1) hQ
    have h4 : heuristic ((0 : Int), (0 : Int)) ((2 : Int), (2 : Int)) = 4 :=
      by decide
    rw [h4] at hge
    have h5 : pathW1.length = 5 := by decide
    omega
  exact ⟨hrect, h01, hP, by decide, hmin,
    implementations_agree gridW1 hrect h01 (0, 0) (2, 2) pathW1 4 hP
      (by decide) hmin (by decide)⟩

/-! ## Claim C4: replanning targets the active destination -/

theorem tryMove_cases (grid : Grid) (s g : Cell) (oldDyn : List Cell)
    (rc : Cell) :
    ∀ ds, tryMove grid s g oldDyn rc ds = rc ∨
      (inB grid (tryMove grid s g oldDyn rc ds) = true ∧
       cellVal grid (tryMove grid s g oldDyn rc ds) = 0 ∧
       tryMove grid s g oldDyn rc ds ≠ s ∧
       tryMove grid s g oldDyn rc ds ≠ g) := by
  intro ds
  induction ds with
  | nil => exact Or.inl rfl
  | cons d ds ih =>
      rw [tryMove]
      split
      · rename_i hcond
        simp only [Bool.and_eq_true, beq_iff_eq, Bool.not_eq_eq_eq_not,
          Bool.not_true, decide_eq_false_iff_not] at hcond
        exact Or.inr ⟨hcond.1.1.1.1, hcond.1.1.1.2, hcond.1.2, hcond.2⟩
      · exact ih

/-- C4.  Every planner invocation of the arrival/replanning step targets the
goal cell when the controller is outbound (`returning = false`) and the start
cell when returning; the step never changes `start`, `goal` or the
`returning` flag, so a replan never changes the active destination. -/
theorem replan_preserves_destination (st : NavState) :
    (∀ call ∈ (arrivalStep st).2,
      call.2 = (if st.returning then st.start else st.goal)) ∧
    (arrivalStep st).1.start = st.start ∧
    (arrivalStep st).1.goal = st.goal ∧
    (arrivalStep st).1.returning = st.returning := by
  unfold arrivalStep
  dsimp only
  split
  · split
    · split <;> simp
    · simp
  · simp

/-- Witness for C4: in the concrete blocked state the step issues exactly one
planner call, and that call targets the goal (the outbound destination). -/
theorem replan_preserves_destination_witness :
    ((0, 0), (1, 1)) ∈ (arrivalStep stC4).2 ∧
    (((0, 0), (1, 1)) : Cell × Cell).2 = (if stC4.returning then stC4.start else stC4.goal) :=
  ⟨by decide, (replan_preserves_destination stC4).1 _ (by decide)⟩

/-! ## Claim C5: the dynamic-obstacle placement invariant -/

theorem move_dynamic_aux (grid : Grid) (s g : Cell) (oldDyn : List Cell)
    (dec : Cell → Bool) (ord : Cell → List Cell) :
    ∀ (l acc : List Cell), acc.Nodup →
      (List.foldl (fun acc rc =>
          addIfAbsent acc (if dec rc then tryMove grid s g oldDyn rc (ord rc) else rc)) acc l).Nodup ∧
      (List.foldl (fun acc rc =>
          addIfAbsent acc (if dec rc then tryMove grid s g oldDyn rc (ord rc) else rc)) acc l).length ≤
        acc.length + l.length ∧
      ∀ c ∈ List.foldl (fun acc rc =>
          addIfAbsent acc (if dec rc then tryMove grid s g oldDyn rc (ord rc) else rc)) acc l,
        c ∈ acc ∨ ∃ rc ∈ l, c = (if dec rc then tryMove grid s g oldDyn rc (ord rc) else rc) := by
  intro l
  induction l with
  | nil => intro acc hacc; exact ⟨hacc, by simp, fun c hc => Or.inl hc⟩
  | cons rc l ih =>
      intro acc hacc
      simp only [List.foldl_cons]
      obtain ⟨h1, h2, h3⟩ := ih _ (nodup_addIfAbsent hacc _)
      refine ⟨h1, ?_, ?_⟩
      · calc _ ≤ (addIfAbsent acc _).length + l.length := h2
          _ ≤ acc.length + 1 + l.length :=
              Nat.add_le_add_right (length_addIfAbsent _ _) _
          _ = acc.length + (rc :: l).length := by simp [Nat.add_comm, Nat.add_assoc, Nat.add_left_comm]
      · intro c hc
        rcases h3 c hc with hmem | ⟨rc2, hrc2, hc2⟩
        · rcases mem_addIfAbsent.1 hmem with hmem2 | rfl
          · exact Or.inl hmem2
          · exact Or.inr ⟨rc, List.mem_cons_self _ _, rfl⟩
        · exact Or.inr ⟨rc2, List.mem_cons_of_mem _ hrc2, hc2⟩

/-- C5 counterexample.  A concrete pre-tick state satisfying the placement
invariant (two obstacles, both on free in-bounds cells distinct from start and
goal, on the all-free grid `gridC5`), with oracle draws that are genuine
shuffles of the candidate list, after which the tick leaves only one obstacle:
both obstacles pass their candidate checks against the pre-tick set and move
onto the same cell `(0,1)`, so the set collapses and the obstacle count drops
from 2 to 1, refuting the parenthetical "the number of obstacles is
unchanged". -/
theorem move_dynamic_merges_two_obstacles :
    (∀ c ∈ dynC5, inB gridC5 c = true ∧ cellVal gridC5 c = 0 ∧ c ≠ sC5 ∧ c ≠ gC5) ∧
    dynC5.Nodup ∧
    (∀ c ∈ dynC5, (ordC5 c).Perm obDirs) ∧
    move_dynamic gridC5 sC5 gC5 dynC5 decC5 ordC5 = [(0, 1)] ∧
    (move_dynamic gridC5 sC5 gC5 dynC5 decC5 ordC5).length ≠ dynC5.length := by
  decide

/-- C5 (amended).  After a tick of `move_dynamic` from a pre-tick set
satisfying the placement invariant, no two obstacles occupy the same cell
(the result is duplicate-free), the count does not increase (it can decrease
when two obstacles merge), and no obstacle sits out of bounds, on a static
wall, on the start cell or on the goal cell; each obstacle's candidates are
checked against the pre-tick set `dyn`. -/
theorem move_dynamic_placement (grid : Grid) (s g : Cell) (dyn : List Cell)
    (dec : Cell → Bool) (ord : Cell → List Cell)
    (hpre : ∀ c ∈ dyn, inB grid c = true ∧ cellVal grid c = 0 ∧ c ≠ s ∧ c ≠ g) :
    (move_dynamic grid s g dyn dec ord).Nodup ∧
    (move_dynamic grid s g dyn dec ord).length ≤ dyn.length ∧
    ∀ c ∈ move_dynamic grid s g dyn dec ord,
      inB grid c = true ∧ cellVal grid c = 0 ∧ c ≠ s ∧ c ≠ g := by
  obtain ⟨h1, h2, h3⟩ := move_dynamic_aux grid s g dyn dec ord dyn [] List.nodup_nil
  refine ⟨h1, by simpa using h2, ?_⟩
  intro c hc
  rcases h3 c hc with hmem | ⟨rc, hrc, hc2⟩
  · simp at hmem
  · subst hc2
    split
    · rcases tryMove_cases grid s g dyn rc (ord rc) with heq | hprops
      · rw [heq]; exact hpre rc hrc
      · exact hprops
    · exact hpre rc hrc

/-- Witness for C5: the amended placement theorem applied to the concrete
merge instance. -/
theorem move_dynamic_placement_witness :
    (∀ c ∈ dynC5, inB gridC5 c = true ∧ cellVal gridC5 c = 0 ∧ c ≠ sC5 ∧ c ≠ gC5) ∧
    ((move_dynamic gridC5 sC5 gC5 dynC5 decC5 ordC5).Nodup ∧
     (move_dynamic gridC5 sC5 gC5 dynC5 decC5 ordC5).length ≤ dynC5.length ∧
     ∀ c ∈ move_dynamic gridC5 sC5 gC5 dynC5 decC5 ordC5,
       inB gridC5 c = true ∧ cellVal gridC5 c = 0 ∧ c ≠ sC5 ∧ c ≠ gC5) :=
  ⟨by decide, move_dynamic_placement gridC5 sC5 gC5 dynC5 decC5 ordC5 (by decide)⟩

/-! ## Claims C8 and C9: start_navigation -/

theorem reconstructN_nil (cur : Cell) (acc : List Cell) :
    reconstructN 1000000000 [] cur acc = cur :: acc := by
  rw [show (1000000000 : Nat) = 999999999 + 1 from rfl]
  simp [reconstructN, mfind]

/-- On any composite grid, `astar` called with `start = goal` pops the start
entry first, sees it is the goal, and immediately returns the singleton
path. -/
theorem astar_self (grid : Grid) (c : Cell) : astar grid c c = some [c] := by
  unfold astar astarRun astarFuel
  rw [show 4 * (rowsOf grid * colsOf grid + 1) + 2 =
        (4 * (rowsOf grid * colsOf grid + 1) + 1) + 1 from rfl]
  simp [astarLoop, reconstructN_nil]

/-- C8 counterexample.  In the concrete idle state standing at the goal,
invoking `start_navigation` performs a planner call (the recorded invocation
list is nonempty — it is exactly one call from the goal to the goal),
refuting "without making any call to the A* planner". -/
theorem start_at_goal_calls_planner :
    stC8.robot_cell = stC8.goal ∧ stC8.moving = false ∧
    (start_navigation stC8).2.1 = [((0, 0), (0, 0))] ∧
    (start_navigation stC8).2.1 ≠ [] := by
  decide

/-- C8 (amended).  Invoking `start_navigation` while idle with the current
cell equal to the goal makes exactly one planner call; that call returns the
length-1 path `[goal]` immediately (first pop of A* is the goal), the path
handed to the animation thread is `[goal]`, and the navigation state is
unchanged. -/
theorem start_at_goal_one_call (st : NavState) (h1 : st.moving = false)
    (h2 : st.robot_cell = st.goal) :
    start_navigation st = (st, [(st.goal, st.goal)], some [st.goal]) := by
  unfold start_navigation
  rw [h1, h2, astar_self]
  rfl

/-- Witness for C8: the amended theorem applied to the concrete at-goal
state. -/
theorem start_at_goal_one_call_witness :
    stC8.moving = false ∧ stC8.robot_cell = stC8.goal ∧
    start_navigation stC8 = (stC8, [(stC8.goal, stC8.goal)], some [stC8.goal]) :=
  ⟨rfl, rfl, start_at_goal_one_call stC8 rfl rfl⟩

/-- C9 counterexample.  `start_navigation` does not itself set `moving` (the
spawned animation thread does); two immediate calls from a concrete idle
state therefore both see `moving = false` and both compute a path — two path
computations, not one. -/
theorem start_twice_two_computations :
    (start_navigation stC9).2.1.length +
      (start_navigation (start_navigation stC9).1).2.1.length = 2 ∧
    ¬((start_navigation stC9).2.1.length +
      (start_navigation (start_navigation stC9).1).2.1.length = 1) := by
  decide

/-- C9 (amended).  A second `start` is a planner-free no-op only once the
spawned animation thread has set the `moving` flag: with `moving = true`,
`start_navigation` performs no planning, changes no navigation state, spawns
nothing, and returns normally (never throws).  `start_navigation` itself
leaves `moving` untouched, so a second call arriving before the spawned
thread first runs performs a second path computation. -/
theorem start_noop_when_moving (st : NavState) (h : st.moving = true) :
    start_navigation st = (st, [], none) := by
  simp [start_navigation, h]

/-- Witness for C9: in the concrete state with `moving` set, a repeated
`start` is the identity with no planner calls. -/
theorem start_noop_when_moving_witness :
    stC9m.moving = true ∧ start_navigation stC9m = (stC9m, [], none) :=
  ⟨rfl, start_noop_when_moving stC9m rfl⟩

/-! ## Claim C6: the sensor sweep detects only ray-terminating occupied cells -/

theorem rayFirstHit_sound (grid : Grid) (dyn : List Cell)
    (rayCell : Nat → Nat → Cell) (angle : Nat) :
    ∀ rem d c, rayFirstHit grid dyn rayCell angle d rem = some c →
      inB grid c = true ∧ occupiedB grid dyn c = true ∧
      ∃ k, d ≤ k ∧ k < d + rem ∧ rayCell angle k = c ∧
        ∀ e, d ≤ e → e < k →
          inB grid (rayCell angle e) = true ∧
          occupiedB grid dyn (rayCell angle e) = false := by
  intro rem
  induction rem with
  | zero => intro d c h; simp [rayFirstHit] at h
  | succ rem ih =>
      intro d c h
      rw [rayFirstHit] at h
      split at h
      · rename_i hb
        split at h
        · rename_i hocc
          obtain rfl : rayCell angle d = c := by simpa using h
          refine ⟨hb, hocc, d, le_refl d, by omega, rfl, ?_⟩
          intro e he1 he2
          omega
        · rename_i hocc
          obtain ⟨hcb, hcocc, k, hk1, hk2, hkc, hpre⟩ := ih (d + 1) c h
          refine ⟨hcb, hcocc, k, by omega, by omega, hkc, ?_⟩
          intro e he1 he2
          rcases Nat.eq_or_lt_of_le he1 with rfl | hlt
          · exact ⟨hb, by simpa using hocc⟩
          · exact hpre e hlt he2
      · exact absurd h (by simp)

theorem lidar_fold_mem (grid : Grid) (dyn : List Cell)
    (rayCell : Nat → Nat → Cell) :
    ∀ (l : List Nat) (acc : List Cell) (c : Cell),
      c ∈ List.foldl (fun acc a =>
        match rayFirstHit grid dyn rayCell a 1 LIDAR_RANGE_CELLS with
        | some c2 => addIfAbsent acc c2
        | none => acc) acc l →
      c ∈ acc ∨ ∃ a ∈ l, rayFirstHit grid dyn rayCell a 1 LIDAR_RANGE_CELLS = some c := by
  intro l
  induction l with
  | nil => intro acc c h; exact Or.inl (by simpa using h)
  | cons a l ih =>
      intro acc c h
      simp only [List.foldl_cons] at h
      rcases ih _ c h with hacc | ⟨a2, ha2, heq⟩
      · rcases heqr : rayFirstHit grid dyn rayCell a 1 LIDAR_RANGE_CELLS with _ | c2
        · rw [heqr] at hacc
          exact Or.inl hacc
        · rw [heqr] at hacc
          rcases mem_addIfAbsent.1 hacc with h2 | rfl
          · exact Or.inl h2
          · exact Or.inr ⟨a, List.mem_cons_self _ _, heqr⟩
      · exact Or.inr ⟨a2, List.mem_cons_of_mem _ ha2, heq⟩

/-- C6.  Every cell in the detected set of a sensor sweep is an in-bounds
cell that is occupied (static wall or dynamic obstacle) at scan time, and
some swept ray terminates on it at a range step `k ≤ LIDAR_RANGE_CELLS`
whose every earlier covered cell is in bounds and unoccupied — i.e. each ray
stops at the first occupied cell it covers, and no cell beyond that first
occupied cell is detected by that ray.  The floating-point ray geometry is
the abstract parameter `rayCell`. -/
theorem lidar_detected_first_hit (grid : Grid) (dyn : List Cell)
    (rayCell : Nat → Nat → Cell) (c : Cell)
    (hc : c ∈ lidar_scan grid dyn rayCell) :
    inB grid c = true ∧ occupiedB grid dyn c = true ∧
    ∃ a ∈ lidarAngles, ∃ k, 1 ≤ k ∧ k ≤ LIDAR_RANGE_CELLS ∧ rayCell a k = c ∧
      ∀ e, 1 ≤ e → e < k →
        inB grid (rayCell a e) = true ∧
        occupiedB grid dyn (rayCell a e) = false := by
  unfold lidar_scan at hc
  rcases lidar_fold_mem grid dyn rayCell lidarAngles [] c hc with h0 | ⟨a, ha, heq⟩
  · simp at h0
  · obtain ⟨hb, hocc, k, hk1, hk2, hkc, hpre⟩ :=
      rayFirstHit_sound grid dyn rayCell a LIDAR_RANGE_CELLS 1 c heq
    exact ⟨hb, hocc, a, ha, k, hk1, by omega, hkc, hpre⟩

set_option maxRecDepth 4000 in
/-- Witness for C6: on the concrete 1-by-2 grid with a wall at `(0,1)` and
the concrete ray geometry, the detected cell `(0,1)` satisfies all the
conclusions. -/
theorem lidar_detected_first_hit_witness :
    ((0, 1) : Cell) ∈ lidar_scan gridC6 [] rayC6 ∧
    (inB gridC6 (0, 1) = true ∧ occupiedB gridC6 [] (0, 1) = true ∧
     ∃ a ∈ lidarAngles, ∃ k, 1 ≤ k ∧ k ≤ LIDAR_RANGE_CELLS ∧ rayC6 a k = (0, 1) ∧
       ∀ e, 1 ≤ e → e < k →
         inB gridC6 (rayC6 a e) = true ∧ occupiedB gridC6 [] (rayC6 a e) = false) :=
  ⟨by decide, lidar_detected_first_hit gridC6 [] rayC6 (0, 1) (by decide)⟩

end Medbo
